import Mathlib

/-!
Verification of the subtitle translation and timing-reconciliation pipeline
of VidScalerSubtitleAdder (src/smart_translation.py, src/translator.py,
src/subtitle_validator.py), via a shallow embedding in Lean 4.

Strings are modelled as lists of characters (`Str`).  File I/O is modelled
at the content boundary: parsers take the file content as a `Str`,
serializers return the content that would be written.
-/

set_option maxRecDepth 40000

/-- Character strings, modelled as lists of characters. -/
abbrev Str := List Char

/-- Fragment of Python's regex class `\s` (and `str.strip` whitespace)
relevant to this code base: ASCII whitespace plus the no-break space
U+00A0.  (Python's `\s` also covers rarer Unicode spaces; none of the
claims depend on those.) -/
def pyIsSpace (c : Char) : Bool :=
  (c.toNat == 32) || (c.toNat == 9) || (c.toNat == 10) || (c.toNat == 11) ||
  (c.toNat == 12) || (c.toNat == 13) || (c.toNat == 160)

/-- Helper for `splitWords`: scans the string, accumulating the current
word; a whitespace character flushes the accumulator. -/
def splitWordsAux : Str → Str → List Str
  | [], acc => if acc = [] then [] else [acc]
  | c :: cs, acc =>
    if pyIsSpace c then
      if acc = [] then splitWordsAux cs [] else acc :: splitWordsAux cs []
    else splitWordsAux cs (acc ++ [c])

/-- Python's `str.split()` with no separator: maximal runs of
non-whitespace characters, in order. -/
def splitWords (s : Str) : List Str := splitWordsAux s []

/-- Intercalate a single space, Python's `" ".join(...)`. -/
def joinSpace : List Str → Str
  | [] => []
  | [w] => w
  | w :: ws => w ++ ' ' :: joinSpace ws

/-- Python's `str.strip()`: drop leading and trailing whitespace. -/
def pyStrip (s : Str) : Str :=
  ((s.dropWhile pyIsSpace).reverse.dropWhile pyIsSpace).reverse

/-- `_normalize_whitespace` of smart_translation.py: replace no-break
spaces by spaces, collapse every whitespace run to a single space, and
strip the ends.  Collapsing runs to one space and stripping is exactly
rejoining the whitespace-separated words with single spaces. -/
def normalize_whitespace (t : Str) : Str :=
  joinSpace (splitWords (t.map (fun c => if c.toNat == 160 then ' ' else c)))

/-! ### Decimal digits (for SRT indices and report strings) -/

/-- Fueled digit printer; the fuel is an upper bound on the recursion
depth, `n + 1` always suffices. -/
def natDigitsGo : ℕ → ℕ → Str
  | 0, _ => []
  | fuel + 1, n =>
    if n < 10 then [Char.ofNat (48 + n)]
    else natDigitsGo fuel (n / 10) ++ [Char.ofNat (48 + n % 10)]

/-- Decimal digits of a natural number, as written by Python's string
interpolation of a non-negative int. -/
def natDigits (n : ℕ) : Str := natDigitsGo (n + 1) n

/-- Python's `int(...)` on a digit string. -/
def parseNat (s : Str) : ℕ := s.foldl (fun a c => a * 10 + (c.toNat - 48)) 0

/-- Decimal rendering of a Python int (possibly negative). -/
def intStr (n : ℤ) : Str :=
  if n < 0 then '-' :: natDigits n.natAbs else natDigits n.natAbs

/-! ### SRT blocks -/

/-- `SRTBlock` of smart_translation.py.  The index is parsed from a run
of decimal digits (regex `\d+`), hence a natural number; `start` and
`end` are kept as the matched timestamp strings (the Python field `end`
is a Lean keyword, so it is called `end_` here). -/
structure SRTBlock where
  index : ℕ
  start : Str
  end_ : Str
  text : Str
deriving DecidableEq

/-! ### textwrap.wrap model and `_wrap_two_lines` -/

/-- `TextWrapper.replace_whitespace`: every whitespace character becomes
an ordinary space before chunking. -/
def wsToSp (c : Char) : Char := if pyIsSpace c then ' ' else c

/-- Chunk splitter of textwrap (`_split`), restricted to hyphen-free
text: maximal runs of whitespace and of non-whitespace characters, in
order.  (Python would additionally split words at hyphens; we only use
this model on hyphen-free words.) -/
def chunksAux : Str → Str → List Str
  | [], acc => if acc = [] then [] else [acc]
  | c :: cs, acc =>
    match acc with
    | [] => chunksAux cs [c]
    | a :: _ =>
      if pyIsSpace c == pyIsSpace a then chunksAux cs (acc ++ [c])
      else acc :: chunksAux cs [c]

/-- Split a string into textwrap chunks. -/
def chunksOf (s : Str) : List Str := chunksAux s []

/-- Does a chunk consist of whitespace only (Python `chunk.strip() == ''`,
also true of the empty chunk)? -/
def isWsChunk (c : Str) : Bool := c.all pyIsSpace

/-- The greedy inner loop of `textwrap._wrap_chunks`: pop chunks onto the
current line while they fit within the width. -/
def takeFits (width : ℕ) : ℕ → List Str → List Str × List Str
  | _, [] => ([], [])
  | curLen, c :: cs =>
    if curLen + c.length ≤ width then
      let p := takeFits width (curLen + c.length) cs
      (c :: p.1, p.2)
    else ([], c :: cs)

/-- One-line-per-step model of `textwrap._wrap_chunks` with the default
options (`drop_whitespace`, `break_long_words`, no `max_lines`): drop a
leading whitespace chunk once a line has been emitted, fill the line
greedily, break an over-wide chunk into the space left on the line, drop
a trailing whitespace chunk, emit the line.  The fuel argument bounds
the number of lines; `wrap` below passes a sufficient amount. -/
def wrapChunks : ℕ → ℕ → Bool → List Str → List Str
  | 0, _, _, _ => []
  | _ + 1, _, _, [] => []
  | fuel + 1, width, hasLines, c :: cs =>
    let chunks1 := if hasLines && isWsChunk c then cs else c :: cs
    match chunks1 with
    | [] => []
    | c1 :: cs1 =>
      let p := takeFits width 0 (c1 :: cs1)
      let curLen0 := (p.1.map List.length).sum
      let q :=
        match p.2 with
        | r :: rs =>
          if width < r.length then
            let spaceLeft := if width < 1 then 1 else width - curLen0
            (p.1 ++ [r.take spaceLeft], r.drop spaceLeft :: rs)
          else (p.1, r :: rs)
        | [] => (p.1, [])
      let cur2 :=
        match q.1.getLast? with
        | some lastc => if isWsChunk lastc then q.1.dropLast else q.1
        | none => q.1
      match cur2 with
      | [] => wrapChunks fuel width hasLines q.2
      | d :: ds => (d :: ds).flatten :: wrapChunks fuel width true q.2

/-- Model of Python's `textwrap.wrap(text, width)` (defaults, hyphen
splitting omitted as noted at `chunksAux`). -/
def textwrap_wrap (text : Str) (width : ℕ) : List Str :=
  let t := text.map wsToSp
  let chunks := chunksOf t
  wrapChunks (2 * (t.length + chunks.length) + 2) width false chunks

/-- Intercalate a newline, Python's `"\n".join(...)`. -/
def joinNL : List Str → Str
  | [] => []
  | [l] => l
  | l :: ls => l ++ '\n' :: joinNL ls

/-- `_wrap_two_lines` of smart_translation.py: wrap to the width; with
more than two lines, keep the first and rejoin the rest into a single
second line. -/
def wrap_two_lines (text : Str) (width : ℕ) : Str :=
  match textwrap_wrap text width with
  | first :: second :: third :: restl => first ++ '\n' :: joinSpace (second :: third :: restl)
  | ls => joinNL ls

/-! ### `_distribute_translation_over_blocks` -/

/-- Python's `round`: round half to even (banker's rounding), on exact
rationals. -/
def roundHalfEven (q : ℚ) : ℤ :=
  let f := ⌊q⌋
  if q - f < 1 / 2 then f
  else if (1 : ℚ) / 2 < q - f then f + 1
  else if f % 2 = 0 then f else f + 1

/-- `targets[i % len(targets)] += step`. -/
def addAt : List ℤ → ℕ → ℤ → List ℤ
  | [], _, _ => []
  | t :: ts, 0, d => (t + d) :: ts
  | t :: ts, n + 1, d => t :: addAt ts n d

/-- The rounding-residual `while` loop of
`_distribute_translation_over_blocks` (lines 261-267): while the signed
residual is nonzero (and there are blocks — targets and blocks have the
same length), add or subtract one character from the targets in
round-robin order.  Each pass moves the residual one step toward zero,
so a fuel of `diff.natAbs` runs the loop to completion. -/
def adjustGo : ℕ → List ℤ → ℤ → ℕ → List ℤ
  | 0, ts, _, _ => ts
  | fuel + 1, ts, diff, i =>
    if diff = 0 ∨ ts = [] then ts
    else
      let step : ℤ := if 0 < diff then 1 else -1
      adjustGo fuel (addAt ts (i % ts.length) step) (diff - step) (i + 1)

/-- The initial per-block targets (line 259):
`max(1, round(tgt_total * len(b.text) / src_total))`. -/
def initialTargets (blocks : List SRTBlock) (src_total tgt_total : ℕ) : List ℤ :=
  blocks.map (fun b =>
    max 1 (roundHalfEven ((tgt_total : ℚ) * (b.text.length : ℚ) / (src_total : ℚ))))

/-- `src_total = sum(len(b.text) for b in blocks) or 1`. -/
def srcTotal (blocks : List SRTBlock) : ℕ :=
  let s := (blocks.map (fun b => b.text.length)).sum
  if s = 0 then 1 else s

/-- The per-block character targets after the rounding-residual
correction, exactly as computed in lines 253-267. -/
def adjustedTargets (blocks : List SRTBlock) (translated_full : Str) : List ℤ :=
  let tf := normalize_whitespace translated_full
  let tgt_total := tf.length
  let targets0 := initialTargets blocks (srcTotal blocks) tgt_total
  adjustGo ((tgt_total : ℤ) - targets0.sum).natAbs targets0 ((tgt_total : ℤ) - targets0.sum) 0

/-- The word-filling inner `while` of lines 278-282: greedily take words
while the next word still fits in the target budget (a joining space is
counted when the line is nonempty).  Returns the taken words and the
remaining words. -/
def takeWords (target : ℤ) : List Str → List Str → ℕ → List Str × List Str
  | [], cur, _ => (cur, [])
  | w :: rest, cur, curLen =>
    if (curLen : ℤ) + (w.length : ℤ) + (if cur = [] then 0 else 1) ≤ target then
      takeWords target rest (cur ++ [w]) (curLen + w.length + (if 0 < curLen then 1 else 0))
    else (cur, w :: rest)

/-- The per-block filling loop of lines 274-284: each block receives the
words that fit its target, and is rebuilt with its original index, start,
end and the wrapped text. -/
def fillGo : List SRTBlock → List ℤ → List Str → List SRTBlock × List Str
  | b :: bs, t :: ts, ws =>
    let p := takeWords t ws [] 0
    let text := pyStrip (joinSpace p.1)
    let rest := fillGo bs ts p.2
    (SRTBlock.mk b.index b.start b.end_ (wrap_two_lines text 42) :: rest.1, rest.2)
  | _, _, ws => ([], ws)

/-- `_distribute_translation_over_blocks` of smart_translation.py
(lines 251-291): keep each block's timing and proportionally allocate the
translated text over the blocks; leftover words are appended to the last
block. -/
def distribute_translation_over_blocks (blocks : List SRTBlock) (translated_full : Str) :
    List SRTBlock :=
  let tf := normalize_whitespace translated_full
  let words := splitWords tf
  let targets := adjustedTargets blocks translated_full
  let p := fillGo blocks targets words
  match p.2 with
  | [] => p.1
  | r :: rs =>
    match p.1.getLast? with
    | none => p.1
    | some last =>
      let extra := pyStrip (last.text ++ ' ' :: joinSpace (r :: rs))
      p.1.dropLast ++ [SRTBlock.mk last.index last.start last.end_ (wrap_two_lines extra 42)]

/-! ### `_split_into_sentence_groups` -/

/-- The close condition `re.search(r"[\.!?][\)\]\"]?$", merged)`: the
string ends (a final newline, which regex `$` also accepts, being
ignored) in `.`, `!` or `?`, optionally followed by one closing bracket
or double quote. -/
def endsSentence (s : Str) : Bool :=
  let t := if s.getLast? == some '\n' then s.dropLast else s
  match t.getLast? with
  | some c =>
    if c == '.' || c == '!' || c == '?' then true
    else if c == ')' || c == ']' || c == '"' then
      match t.dropLast.getLast? with
      | some d => d == '.' || d == '!' || d == '?'
      | none => false
    else false
  | none => false

/-- The accumulator loop of `_split_into_sentence_groups`: `i` is the
position of the next block, `curStart` the position where the pending
group started, `curText` the accumulated block texts.  When the input is
exhausted, a nonempty accumulator forms a final group ending at the last
position (`i - 1`). -/
def sentenceGroupsGo (maxChars : ℕ) :
    List SRTBlock → ℕ → ℕ → List Str → List (ℕ × ℕ × Str)
  | [], i, curStart, curText =>
    if curText = [] then []
    else [(curStart, i - 1, normalize_whitespace (joinSpace curText))]
  | b :: rest, i, curStart, curText =>
    let merged := joinSpace (curText ++ [b.text])
    if endsSentence merged = true ∨ maxChars ≤ merged.length then
      (curStart, i, normalize_whitespace merged) :: sentenceGroupsGo maxChars rest (i + 1) (i + 1) []
    else sentenceGroupsGo maxChars rest (i + 1) curStart (curText ++ [b.text])

/-- `_split_into_sentence_groups` of smart_translation.py (lines 83-100):
group adjacent blocks into sentence-like chunks, returning
`(start_idx, end_idx, merged_text)` with inclusive 0-based positions. -/
def split_into_sentence_groups (blocks : List SRTBlock) (maxChars : ℕ) : List (ℕ × ℕ × Str) :=
  sentenceGroupsGo maxChars blocks 0 0 []

/-! ### `parse_srt` and `write_srt` -/

/-- Regex class `\d` (ASCII decimal digits; Python also accepts other
Unicode decimal digits, which this code base never produces). -/
def isDigitChar (c : Char) : Bool := (48 ≤ c.toNat) && (c.toNat ≤ 57)

/-- Does a string consist of exactly the timestamp pattern
`\d{2}:\d{2}:\d{2},\d{3}`? -/
def isTSpattern : Str → Bool
  | [a, b, c, d, e, f, g, h, i, j, k, l] =>
    isDigitChar a && isDigitChar b && (c == ':') && isDigitChar d && isDigitChar e &&
    (f == ':') && isDigitChar g && isDigitChar h && (i == ',') && isDigitChar j &&
    isDigitChar k && isDigitChar l
  | _ => false

/-- Match the 12-character timestamp pattern at the head of the string,
returning the matched characters and the remainder. -/
def matchTimestamp (s : Str) : Option (Str × Str) :=
  if isTSpattern (s.take 12) then some (s.take 12, s.drop 12) else none

/-- The lazy text group `([\s\S]*?)(?=\n\n|\Z)`: everything up to (not
including) the first blank-line separator, or to the end of input. -/
def takeUntilBlank : Str → Str × Str
  | [] => ([], [])
  | c :: rest =>
    if c = '\n' ∧ rest.head? = some '\n' then ([], c :: rest)
    else
      let p := takeUntilBlank rest
      (c :: p.1, p.2)

/-- Attempt to match the block regex of `parse_srt`
(`(\d+)\s*\n(ts)\s-->\s(ts)\n([\s\S]*?)(?=\n\n|\Z)`) at the start of the
string.  `(\d+)\s*\n` followed by a timestamp digit forces the maximal
whitespace run after the digits to be nonempty and to end in a newline.
On success, returns the normalized block and the unconsumed remainder
(the lookahead `\n\n` is not consumed). -/
def matchEntry (s : Str) : Option (SRTBlock × Str) :=
  let ds := s.takeWhile isDigitChar
  let r1 := s.dropWhile isDigitChar
  if ds = [] then none
  else
    let ws := r1.takeWhile pyIsSpace
    let r2 := r1.dropWhile pyIsSpace
    if ws = [] then none
    else if ws.getLast? ≠ some '\n' then none
    else
      match matchTimestamp r2 with
      | none => none
      | some (t1, r3) =>
        match r3 with
        | sp1 :: d1 :: d2 :: d3 :: sp2 :: r5 =>
          if pyIsSpace sp1 = false then none
          else if ¬ (d1 = '-' ∧ d2 = '-' ∧ d3 = '>') then none
          else if pyIsSpace sp2 = false then none
          else
            match matchTimestamp r5 with
            | none => none
            | some (t2, r6) =>
              match r6 with
              | c6 :: r7 =>
                if c6 ≠ '\n' then none
                else
                  let p := takeUntilBlank r7
                  some (⟨parseNat ds,
                         t1, t2,
                         normalize_whitespace (p.1.map (fun c => if c == '\n' then ' ' else c))⟩,
                        p.2)
              | [] => none
        | _ => none

/-- `re.finditer` over the block pattern: scan for the leftmost match,
emit it (keeping only blocks with nonempty normalized text, the
`if text:` filter of line 72), and continue after the match.  The fuel
decreases every step; `parse_srt` passes the input length plus one,
which is always sufficient since a failed position advances by one
character and a match consumes at least one. -/
def scanEntries : ℕ → Str → List SRTBlock
  | 0, _ => []
  | _ + 1, [] => []
  | fuel + 1, c :: rest =>
    match matchEntry (c :: rest) with
    | some (b, r) => (if b.text ≠ [] then [b] else []) ++ scanEntries fuel r
    | none => scanEntries fuel rest

/-- `parse_srt` of smart_translation.py (lines 58-74), on the file
content (the utf-8/latin-1 reading happens at the file boundary). -/
def parse_srt (s : Str) : List SRTBlock := scanEntries (s.length + 1) s

/-- One serialized block, `f"{b.index}\n{b.start} --> {b.end}\n{b.text}\n\n"`. -/
def write_block (b : SRTBlock) : Str :=
  natDigits b.index ++ '\n' ::
    (b.start ++ ' ' :: '-' :: '-' :: '>' :: ' ' ::
      (b.end_ ++ '\n' :: (b.text ++ ['\n', '\n'])))

/-- `write_srt` of smart_translation.py (lines 77-80), returning the
content written to the file. -/
def write_srt (blocks : List SRTBlock) : Str := (blocks.map write_block).flatten

/-! ### The translation cache of smart_translation.py -/

/-- `JsonCache`: the in-memory dict behind the JSON cache file (the
atomic write-to-temp-then-rename persistence acts at the file boundary
and does not change the mapping). Insertion-ordered association list. -/
structure JsonCache where
  data : List (Str × Str)
deriving DecidableEq

/-- `dict.get(key)`. -/
def JsonCache.get (c : JsonCache) (k : Str) : Option Str :=
  (c.data.find? (fun p => p.1 == k)).map (fun p => p.2)

/-- `self._data[key] = value` (overwrite or append). -/
def JsonCache.set (c : JsonCache) (k v : Str) : JsonCache :=
  if (c.data.find? (fun p => p.1 == k)).isSome then
    ⟨c.data.map (fun p => if p.1 == k then (p.1, v) else p)⟩
  else ⟨c.data ++ [(k, v)]⟩

/-- `_cache_key` (lines 245-248): a deterministic fingerprint of the
translation request.  The source hashes the NUL-joined tuple with
sha256; we model the fingerprint by the NUL-joined tuple itself, which
is injective and deterministic exactly like the hex digest (modulo hash
collisions, irrelevant to the claims). -/
def cache_key (provider model src tgt text : Str) : Str :=
  provider ++ Char.ofNat 0 :: (model ++ Char.ofNat 0 :: (src ++ Char.ofNat 0 :: (tgt ++ Char.ofNat 0 :: text)))

/-- Python `str.lower()` (ASCII fragment suffices here). -/
def lowerStr (s : Str) : Str := s.map Char.toLower

/-- The inner `translate_text` of `translate_srt` in smart_translation.py
(lines 312-325), with the external provider abstracted as a function
`oracle` from source text to translated text (`OpenAITranslator`
construction plus `translate_one`).  Returns the translation result, the
updated cache, and the number of external provider calls made (0 or 1).
Note `if cached:` is a Python truthiness test: a cached empty string
does not count as a hit. -/
def cache_translate_text (oracle : Str → Str) (provider : Str) (mdl : Str)
    (source_lang target_lang : Str) (cache : JsonCache) (t : Str) :
    Except Str Str × JsonCache × ℕ :=
  let prov := lowerStr provider
  if prov = "openai".data then
    let key := cache_key prov mdl source_lang target_lang t
    let hit :=
      match cache.get key with
      | some v => if v = [] then none else some v
      | none => none
    match hit with
    | some v => (Except.ok v, cache, 0)
    | none =>
      let out := oracle t
      (Except.ok out, cache.set key out, 1)
  else (Except.error ("Unsupported provider: ".data ++ provider), cache, 0)

/-! ### subtitle_validator.py -/

/-- A parsed segment of subtitle_validator.py (`parse_srt_segments`):
index (Python int, possibly negative), timestamp line, text. -/
structure Segment where
  index : ℤ
  timestamp : Str
  text : Str
deriving DecidableEq

/-- `ValidationResult` of subtitle_validator.py. -/
structure ValidationResult where
  is_valid : Bool
  empty_count : ℕ
  total_count : ℕ
  empty_percentage : ℚ
  drift_start : Option ℤ
  drift_amount : ℕ
  details : Str
deriving DecidableEq

/-- `bool(seg['text'].strip())`. -/
def segHasText (s : Segment) : Bool := !(pyStrip s.text).isEmpty

/-- The empty-segment scan (lines 95-100): the original indices of the
positions where the original has text and the translation does not.
(The source indexes both lists over `range(total)`; at this point both
lists have the same length, so the positional walk is identical.) -/
def emptyIndicesGo : List Segment → List Segment → List ℤ
  | o :: os, t :: ts =>
    (if segHasText o && !(segHasText t) then [o.index] else []) ++ emptyIndicesGo os ts
  | _, _ => []

/-- `empty_indices` of `validate_translation`. -/
def empty_indices (orig trans : List Segment) : List ℤ := emptyIndicesGo orig trans

/-- `max(seg['index'] for seg in orig_segments)` (the list is nonempty
where this is evaluated). -/
def maxIndex : List Segment → ℤ
  | [] => 0
  | s :: rest => rest.foldl (fun a t => max a t.index) s.index

/-- The drift-start scan (lines 124-129): the index of the first
position `i` with original text, empty translation, and
`i > total * 0.5`. -/
def driftStartScan (total : ℕ) : ℕ → List Segment → List Segment → Option ℤ
  | i, o :: os, t :: ts =>
    if segHasText o && !(segHasText t) && decide ((total : ℚ) * (1 / 2) < (i : ℚ)) then
      some o.index
    else driftStartScan total (i + 1) os ts
  | _, _, _ => none

/-- One-decimal rendering of a rational, Python's `f"{x:.1f}"` on the
(here exact) percentage value. -/
def fmt1 (q : ℚ) : Str :=
  let m := roundHalfEven (q * 10)
  (if m < 0 then ['-'] else []) ++ natDigits (m.natAbs / 10) ++ '.' :: natDigits (m.natAbs % 10)

/-- The count-mismatch report (lines 85-91). -/
def mismatch_details (total k : ℕ) : Str :=
  "Segment-Anzahl stimmt nicht überein!\nOriginal: ".data ++ natDigits total ++
  " Segmente\nÜbersetzung: ".data ++ natDigits k ++
  " Segmente\n\nDie Übersetzung hat eine andere Anzahl Segmente als das Original. Das Video wird wahrscheinlich nicht korrekt synchronisiert.".data

/-- `", ".join(str(i) for i in xs)`. -/
def joinCommaInts : List ℤ → Str
  | [] => []
  | [n] => intStr n
  | n :: ns => intStr n ++ ',' :: ' ' :: joinCommaInts ns

/-- The report text of lines 139-174. -/
def validationDetails (is_valid : Bool) (total empty_count : ℕ) (empty_pct : ℚ)
    (empty_idx : List ℤ) (drift_start : Option ℤ) (drift_amount : ℕ) : Str :=
  if is_valid then
    "Übersetzung OK: ".data ++ natDigits total ++ " Segmente, ".data ++
    natDigits empty_count ++ " ohne Text (".data ++ fmt1 empty_pct ++ "%).".data
  else
    let header :=
      "Mögliche Qualitätsprobleme erkannt:\n\nSegmente gesamt: ".data ++ natDigits total ++
      "\nLeere Segmente: ".data ++ natDigits empty_count ++ " (".data ++ fmt1 empty_pct ++ "%)".data
    let middle :=
      if 0 < drift_amount then
        "\n\nInhaltliche Verschiebung erkannt:\n  Vermuteter Drift: ~".data ++
        natDigits drift_amount ++ " Segmente".data ++
        (match drift_start with
         | some d => if d ≠ 0 then "\n  Möglicher Beginn: ab Segment ".data ++ intStr d else []
         | none => []) ++
        "\n\nDas bedeutet: Die Übersetzung ist wahrscheinlich um ~".data ++
        natDigits drift_amount ++
        " Segmente verschoben. Untertitel und gesprochener Text werden nicht zusammenpassen.".data
      else
        "\n\n".data ++ natDigits empty_count ++
        " Segmente haben keine Übersetzung, obwohl das Original dort Text enthält.".data
    let tail :=
      if empty_count ≤ 5 ∧ empty_idx ≠ [] then
        "\n\nBetroffene Segmente: ".data ++ joinCommaInts empty_idx
      else []
    header ++ middle ++ tail

/-- `validate_translation` of subtitle_validator.py (lines 51-184), on
the two parsed segment lists (`parse_srt_segments` of the two files). -/
def validate_translation (orig trans : List Segment) (empty_threshold_pct : ℚ) :
    ValidationResult :=
  let total := orig.length
  if total = 0 then
    ⟨true, 0, 0, 0, none, 0, "Keine Segmente im Original.".data⟩
  else if trans.length ≠ total then
    ⟨false, 0, total, 0, none, 0, mismatch_details total trans.length⟩
  else
    let empty_idx := empty_indices orig trans
    let empty_count := empty_idx.length
    let empty_pct : ℚ := ((empty_count : ℚ) / (total : ℚ)) * 100
    let driftPair : Option ℤ × ℕ :=
      if 3 ≤ empty_count then
        let last_quarter_start : ℚ := (maxIndex orig : ℚ) * (3 / 4)
        let empty_in_last_quarter :=
          empty_idx.countP (fun idx : ℤ => decide (last_quarter_start ≤ (idx : ℚ)))
        if (empty_count : ℚ) * (1 / 2) ≤ (empty_in_last_quarter : ℚ) then
          let ds0 := driftStartScan total 0 orig trans
          let ds :=
            match ds0 with
            | some d => some d
            | none => empty_idx.head?
          (ds, empty_in_last_quarter)
        else (none, 0)
      else (none, 0)
    let drift_start := driftPair.1
    let drift_amount := driftPair.2
    let is_valid := decide (empty_pct < empty_threshold_pct) && (drift_amount == 0)
    ⟨is_valid, empty_count, total, empty_pct, drift_start, drift_amount,
     validationDetails is_valid total empty_count empty_pct empty_idx drift_start drift_amount⟩

/-! ### translator.py: `SubtitleTranslator.translate_srt` dispatch -/

/-- The three translation backends. -/
inductive Prov
  | openai
  | google
  | whisper
deriving DecidableEq

/-- Split on commas, keeping empty pieces (Python `raw.split(",")`). -/
def splitCommaAux : Str → Str → List Str
  | [], acc => [acc]
  | c :: cs, acc => if c == ',' then acc :: splitCommaAux cs [] else splitCommaAux cs (acc ++ [c])

/-- Python `raw.split(",")`. -/
def splitComma (s : Str) : List Str := splitCommaAux s []

/-- `_get_auto_fallback_order` of translator.py (lines 23-34).  The
argument models `os.getenv("SRT_FALLBACK_ORDER") or
os.getenv("SMART_SRT_FALLBACK_ORDER")`: `none` when both are unset or
empty (Python `or` skips falsy values), in which case the fixed default
order applies. -/
def get_auto_fallback_order (raw : Option Str) : List Str :=
  let rawS :=
    match raw with
    | some r => r
    | none => "openai,google,whisper".data
  let toks := (splitComma rawS).filterMap
    (fun t => if pyStrip t = [] then none else some (lowerStr (pyStrip t)))
  toks.filter (fun m =>
    (m == "openai".data) || (m == "google".data) || (m == "whisper".data))

/-- The ambient state that `translate_srt` consults: the module-level
availability flags, the resolved fallback-order environment value, and
the outcome each backend would produce if actually run on the given
input file (`.error e` models the backend raising exception `e`).
`openaiOutcome` covers `OpenAITranslator()` construction plus
`smart_translate_srt` (the preset arguments it receives do not affect
provider selection and are abstracted). -/
structure TransEnv where
  smartAvailable : Bool
  openaiProviderAvailable : Bool
  translatorsAvailable : Bool
  whisperAvailable : Bool
  fallbackRaw : Option Str
  openaiOutcome : Except Str Str
  googleOutcome : Except Str Str
  whisperOutcome : Except Str Str

/-- The OpenAI attempt inside `translate_srt`: raise if
`OPENAI_PROVIDER_AVAILABLE` is false (line 418/557), otherwise run the
smart pipeline.  The second component is the list of external providers
actually invoked. -/
def attemptOpenai (env : TransEnv) : Except Str Str × List Prov :=
  if env.openaiProviderAvailable then (env.openaiOutcome, [Prov.openai])
  else (Except.error "OpenAI provider not available (install smart-srt-translator[openai])".data, [])

/-- The AUTO-mode loop of `translate_srt` (lines 402-541): walk the
fallback order; a candidate whose guard fails is skipped silently; a
candidate that raises records the error (`last_err`) and the loop
continues; a success returns immediately.  With the list exhausted, the
recorded last error is re-raised, or a generic failure if none was
recorded. -/
def autoGo (env : TransEnv) (targetLang : Str) (videoPath : Option Str) :
    List Str → Option Str → Except Str Str × List Prov
  | [], lastErr =>
    (match lastErr with
     | some e => Except.error e
     | none => Except.error "No available translation method succeeded in AUTO mode".data, [])
  | m :: rest, lastErr =>
    if m = "openai".data ∧ env.smartAvailable = true then
      match attemptOpenai env with
      | (Except.ok s, tr) => (Except.ok s, tr)
      | (Except.error e, tr) =>
        let p := autoGo env targetLang videoPath rest (some e)
        (p.1, tr ++ p.2)
    else if m = "google".data ∧ env.translatorsAvailable = true then
      match env.googleOutcome with
      | Except.ok s => (Except.ok s, [Prov.google])
      | Except.error e =>
        let p := autoGo env targetLang videoPath rest (some e)
        (p.1, Prov.google :: p.2)
    else if m = "whisper".data ∧ env.whisperAvailable = true ∧ videoPath ≠ none ∧
        targetLang = "en".data then
      match env.whisperOutcome with
      | Except.ok s => (Except.ok s, [Prov.whisper])
      | Except.error e =>
        let p := autoGo env targetLang videoPath rest (some e)
        (p.1, Prov.whisper :: p.2)
    else autoGo env targetLang videoPath rest lastErr

/-- `SubtitleTranslator.translate_srt` of translator.py (lines 338-702),
reduced to its provider-selection and error-propagation behaviour: the
result is the outcome surfaced to the caller, paired with the list of
external providers invoked.  In the explicit `openai` branch the
`except` clause re-raises whenever `method == "openai"` — which is the
branch condition — so its fallback code below the re-raise is
unreachable and an explicit `openai` failure always propagates. -/
def translate_srt_dispatch (env : TransEnv) (method targetLang : Str)
    (videoPath : Option Str) : Except Str Str × List Prov :=
  if method = "auto".data then
    autoGo env targetLang videoPath (get_auto_fallback_order env.fallbackRaw) none
  else if method = "openai".data ∧ env.smartAvailable = true then
    attemptOpenai env
  else if method = "whisper".data ∧ env.whisperAvailable = true ∧ videoPath ≠ none then
    if targetLang ≠ "en".data then
      (Except.error ("Whisper kann nur nach Englisch (en) übersetzen, nicht nach ".data ++
        targetLang ++ ". Verwende stattdessen google oder openai Methode.".data), [])
    else (env.whisperOutcome, [Prov.whisper])
  else if method = "google".data ∧ env.translatorsAvailable = true then
    (env.googleOutcome, [Prov.google])
  else
    (Except.error ("Übersetzungsmethode ".data ++ method ++
      " nicht verfügbar oder Video-Pfad fehlt".data), [])

/-- The provider an explicit single-method request names. -/
def explicitProv (m : Str) : Prov :=
  if m = "google".data then Prov.google
  else if m = "whisper".data then Prov.whisper
  else Prov.openai

/-- The availability precondition `translate_srt` checks before running
an explicit single-method request. -/
def explicitPrecond (env : TransEnv) (m targetLang : Str) (videoPath : Option Str) : Prop :=
  if m = "openai".data then env.smartAvailable = true
  else if m = "google".data then env.translatorsAvailable = true
  else env.whisperAvailable = true ∧ videoPath ≠ none ∧ targetLang = "en".data

/-- The eligibility guard a candidate must pass in the AUTO loop. -/
def eligibleCandidate (env : TransEnv) (targetLang : Str) (videoPath : Option Str)
    (m : Str) : Prop :=
  (m = "openai".data ∧ env.smartAvailable = true) ∨
  (m = "google".data ∧ env.translatorsAvailable = true) ∨
  (m = "whisper".data ∧ env.whisperAvailable = true ∧ videoPath ≠ none ∧
    targetLang = "en".data)

instance (env : TransEnv) (targetLang : Str) (videoPath : Option Str) :
    DecidablePred (eligibleCandidate env targetLang videoPath) := by
  intro m
  unfold eligibleCandidate
  infer_instance

/-- The outcome a candidate method produces when attempted (for
`openai`, the provider-availability raise is part of the attempt). -/
def candidateAttempt (env : TransEnv) (m : Str) : Except Str Str :=
  if m = "openai".data then (attemptOpenai env).1
  else if m = "google".data then env.googleOutcome
  else env.whisperOutcome

/-- The payload of an exception outcome. -/
def errOf : Except Str Str → Str
  | Except.error e => e
  | Except.ok _ => []

/-! ## Supporting lemmas -/

section SupportLemmas

/-- The field projection that forgets the text of a block. -/
def timingOf (b : SRTBlock) : ℕ × Str × Str := (b.index, b.start, b.end_)

theorem addAt_length (ts : List ℤ) (j : ℕ) (d : ℤ) : (addAt ts j d).length = ts.length := by
  induction ts generalizing j with
  | nil => rfl
  | cons t ts ih =>
    cases j with
    | zero => rfl
    | succ n => simpa [addAt] using ih n

theorem addAt_sum (ts : List ℤ) (j : ℕ) (d : ℤ) (hj : j < ts.length) :
    (addAt ts j d).sum = ts.sum + d := by
  induction ts generalizing j with
  | nil => simp at hj
  | cons t ts ih =>
    cases j with
    | zero => simp [addAt]; ring
    | succ n =>
      have := ih n (by simpa using hj)
      simp [addAt, this]
      ring

theorem adjustGo_length (fuel : ℕ) (ts : List ℤ) (diff : ℤ) (i : ℕ) :
    (adjustGo fuel ts diff i).length = ts.length := by
  induction fuel generalizing ts diff i with
  | zero => rfl
  | succ n ih =>
    rw [adjustGo]
    split
    · rfl
    · rw [ih, addAt_length]

theorem adjustGo_sum (fuel : ℕ) : ∀ (ts : List ℤ) (diff : ℤ) (i : ℕ),
    ts ≠ [] → diff.natAbs ≤ fuel → (adjustGo fuel ts diff i).sum = ts.sum + diff := by
  induction fuel with
  | zero =>
    intro ts diff i _ hle
    have : diff = 0 := by omega
    simp [adjustGo, this]
  | succ n ih =>
    intro ts diff i hne hle
    rw [adjustGo]
    split
    · rename_i h
      rcases h with h | h
      · simp [h]
      · exact absurd h hne
    · rename_i h
      push_neg at h
      obtain ⟨hd0, _⟩ := h
      have hlen : 0 < ts.length := List.length_pos.mpr hne
      have hmod : i % ts.length < ts.length := Nat.mod_lt _ hlen
      have hstep : ((if (0:ℤ) < diff then (1:ℤ) else -1)).natAbs = 1 := by
        split <;> rfl
      have habs : (diff - (if (0:ℤ) < diff then (1:ℤ) else -1)).natAbs ≤ n := by
        split <;> omega
      have hne' : addAt ts (i % ts.length) (if (0:ℤ) < diff then (1:ℤ) else -1) ≠ [] := by
        intro hcon
        have := addAt_length ts (i % ts.length) (if (0:ℤ) < diff then (1:ℤ) else -1)
        rw [hcon] at this
        simp at this
        omega
      rw [ih _ _ _ hne' habs, addAt_sum _ _ _ hmod]
      ring

theorem initialTargets_length (blocks : List SRTBlock) (s t : ℕ) :
    (initialTargets blocks s t).length = blocks.length := by
  simp [initialTargets]

theorem adjustedTargets_length (blocks : List SRTBlock) (tf : Str) :
    (adjustedTargets blocks tf).length = blocks.length := by
  unfold adjustedTargets
  rw [adjustGo_length, initialTargets_length]

theorem fillGo_timing : ∀ (blocks : List SRTBlock) (targets : List ℤ) (ws : List Str),
    targets.length = blocks.length →
    (fillGo blocks targets ws).1.map timingOf = blocks.map timingOf := by
  intro blocks
  induction blocks with
  | nil =>
    intro targets ws h
    have : targets = [] := by
      cases targets with
      | nil => rfl
      | cons a as => simp at h
    subst this
    rfl
  | cons b bs ih =>
    intro targets ws h
    cases targets with
    | nil => simp at h
    | cons t ts =>
      simp only [fillGo, List.map_cons]
      rw [ih ts _ (by simpa using h)]
      rfl

end SupportLemmas

/-! ## Claims -/

/-- C1.  In preserve-timing mode, the timing reconciler changes no cue's
timing: for every cue sequence and every translated string, each block
returned by `_distribute_translation_over_blocks` has the same index,
start, and end values as the input block at the same position; only the
text field differs. -/
theorem mapTiming_replaceLast (l : List SRTBlock) (last : SRTBlock) (t : Str)
    (hlast : l.getLast? = some last) :
    (l.dropLast ++ [SRTBlock.mk last.index last.start last.end_ t]).map timingOf
      = l.map timingOf := by
  have hne : l ≠ [] := by
    intro hcon
    rw [hcon] at hlast
    simp at hlast
  have hgl : l.getLast hne = last := by
    have := List.getLast?_eq_getLast l hne
    rw [hlast] at this
    exact (Option.some_injective _ this.symm)
  calc (l.dropLast ++ [SRTBlock.mk last.index last.start last.end_ t]).map timingOf
      = l.dropLast.map timingOf ++ [timingOf last] := by simp [timingOf]
    _ = l.dropLast.map timingOf ++ [timingOf (l.getLast hne)] := by rw [hgl]
    _ = (l.dropLast ++ [l.getLast hne]).map timingOf := by simp
    _ = l.map timingOf := by rw [List.dropLast_append_getLast]

theorem distribute_preserves_timing (blocks : List SRTBlock) (translated_full : Str) :
    (distribute_translation_over_blocks blocks translated_full).map timingOf
      = blocks.map timingOf := by
  have hlen : (adjustedTargets blocks translated_full).length = blocks.length :=
    adjustedTargets_length blocks translated_full
  have hfill := fillGo_timing blocks (adjustedTargets blocks translated_full)
    (splitWords (normalize_whitespace translated_full)) hlen
  unfold distribute_translation_over_blocks
  dsimp only
  split
  · exact hfill
  · split
    · exact hfill
    · rename_i r rs last hlast
      rw [mapTiming_replaceLast _ last _ hlast]
      exact hfill

/-- C4.  For every non-empty block sequence and every translated string,
after the rounding-residual correction step of the preserve-timing
distribution, the per-block target character counts sum exactly to the
length of the whitespace-normalized translated text. -/
theorem adjusted_targets_sum_exact (blocks : List SRTBlock) (translated_full : Str)
    (h : blocks ≠ []) :
    (adjustedTargets blocks translated_full).sum
      = ((normalize_whitespace translated_full).length : ℤ) := by
  unfold adjustedTargets
  have hne : initialTargets blocks (srcTotal blocks)
      (normalize_whitespace translated_full).length ≠ [] := by
    intro hcon
    have := initialTargets_length blocks (srcTotal blocks)
      (normalize_whitespace translated_full).length
    rw [hcon] at this
    exact h (List.length_eq_zero.mp this.symm)
  rw [adjustGo_sum _ _ _ _ hne (le_refl _)]
  ring

/-- Witness for C4 at a concrete two-block input. -/
theorem adjusted_targets_sum_exact_witness :
    ([(⟨1, "a".data, "b".data, "ab".data⟩ : SRTBlock),
      ⟨2, "c".data, "d".data, "xyz".data⟩] ≠ ([] : List SRTBlock)) ∧
    (adjustedTargets
        [⟨1, "a".data, "b".data, "ab".data⟩, ⟨2, "c".data, "d".data, "xyz".data⟩]
        "Guten Tag alle zusammen".data).sum
      = ((normalize_whitespace "Guten Tag alle zusammen".data).length : ℤ) :=
  ⟨by decide,
   adjusted_targets_sum_exact
     [⟨1, "a".data, "b".data, "ab".data⟩, ⟨2, "c".data, "d".data, "xyz".data⟩]
     "Guten Tag alle zusammen".data (by decide)⟩

/-- C10.  `parse_srt` silently drops any SRT block whose text is empty or
whitespace-only after normalization: for every input file content, every
returned block has non-empty text, so a structurally well-formed cue
with blank text never appears in the parsed cue sequence. -/
theorem parse_srt_text_nonempty : ∀ (s : Str), ∀ b ∈ parse_srt s, b.text ≠ [] := by
  have key : ∀ fuel (s : Str), ∀ b ∈ scanEntries fuel s, b.text ≠ [] := by
    intro fuel
    induction fuel with
    | zero =>
      intro s b hb
      simp [scanEntries] at hb
    | succ n ih =>
      intro s b hb
      match s with
      | [] => simp [scanEntries] at hb
      | c :: rest =>
        rw [scanEntries] at hb
        cases hme : matchEntry (c :: rest) with
        | none =>
          rw [hme] at hb
          exact ih rest b hb
        | some pr =>
          rw [hme] at hb
          simp only [List.mem_append] at hb
          rcases hb with hb | hb
          · by_cases ht : pr.1.text ≠ []
            · simp [ht] at hb
              rw [hb]
              exact ht
            · simp [ht] at hb
          · exact ih pr.2 b hb
  intro s b hb
  exact key (s.length + 1) s b hb

/-- Witness for C10: a concrete parse producing a block, whose text is
then non-empty by the theorem. -/
theorem parse_srt_text_nonempty_witness :
    ((⟨1, "00:00:01,000".data, "00:00:02,000".data, "Hey".data⟩ : SRTBlock)
        ∈ parse_srt "1\n00:00:01,000 --> 00:00:02,000\nHey\n\n".data) ∧
    (⟨1, "00:00:01,000".data, "00:00:02,000".data, "Hey".data⟩ : SRTBlock).text ≠ [] :=
  ⟨by decide,
   parse_srt_text_nonempty "1\n00:00:01,000 --> 00:00:02,000\nHey\n\n".data
     ⟨1, "00:00:01,000".data, "00:00:02,000".data, "Hey".data⟩ (by decide)⟩

/-- C7.  Whenever the original parses to N > 0 segments and the
translated file parses to a different number of segments,
`validate_translation` returns the distinct count-mismatch result:
`is_valid` false, `empty_count` and `drift_amount` zero, `drift_start`
none, and a details string containing both segment counts — the
empty-segment and drift analyses are never entered. -/
theorem validate_count_mismatch (orig trans : List Segment) (thr : ℚ)
    (h0 : orig ≠ []) (hne : trans.length ≠ orig.length) :
    validate_translation orig trans thr =
      ⟨false, 0, orig.length, 0, none, 0, mismatch_details orig.length trans.length⟩ ∧
    (∃ u v, mismatch_details orig.length trans.length = u ++ (natDigits orig.length ++ v)) ∧
    (∃ u v, mismatch_details orig.length trans.length = u ++ (natDigits trans.length ++ v)) := by
  refine ⟨?_, ?_, ?_⟩
  · unfold validate_translation
    have hlen : orig.length ≠ 0 := fun hc => h0 (List.length_eq_zero.mp hc)
    rw [if_neg hlen, if_pos hne]
  · exact ⟨"Segment-Anzahl stimmt nicht überein!\nOriginal: ".data,
      " Segmente\nÜbersetzung: ".data ++ natDigits trans.length ++
        " Segmente\n\nDie Übersetzung hat eine andere Anzahl Segmente als das Original. Das Video wird wahrscheinlich nicht korrekt synchronisiert.".data,
      by simp [mismatch_details]⟩
  · exact ⟨"Segment-Anzahl stimmt nicht überein!\nOriginal: ".data ++ natDigits orig.length ++
        " Segmente\nÜbersetzung: ".data,
      " Segmente\n\nDie Übersetzung hat eine andere Anzahl Segmente als das Original. Das Video wird wahrscheinlich nicht korrekt synchronisiert.".data,
      by simp [mismatch_details]⟩

/-- Witness for C7 on a concrete 4-versus-3 segment pair. -/
theorem validate_count_mismatch_witness :
    validate_translation
        [⟨1, "ts".data, "a".data⟩, ⟨2, "ts".data, "b".data⟩,
         ⟨3, "ts".data, "c".data⟩, ⟨4, "ts".data, "d".data⟩]
        [⟨1, "ts".data, "x".data⟩, ⟨2, "ts".data, "".data⟩, ⟨3, "ts".data, "".data⟩] 2 =
      ⟨false, 0, 4, 0, none, 0, mismatch_details 4 3⟩ :=
  (validate_count_mismatch
      [⟨1, "ts".data, "a".data⟩, ⟨2, "ts".data, "b".data⟩,
       ⟨3, "ts".data, "c".data⟩, ⟨4, "ts".data, "d".data⟩]
      [⟨1, "ts".data, "x".data⟩, ⟨2, "ts".data, "".data⟩, ⟨3, "ts".data, "".data⟩] 2
      (by decide) (by decide)).1

/-! ### Sentence grouper partition lemmas (C3) -/

theorem sentenceGroupsGo_ne (maxChars : ℕ) :
    ∀ (rest : List SRTBlock) (i curStart : ℕ) (curText : List Str),
    rest ≠ [] ∨ curText ≠ [] → sentenceGroupsGo maxChars rest i curStart curText ≠ [] := by
  intro rest
  induction rest with
  | nil =>
    intro i curStart curText h
    rcases h with h | h
    · exact absurd rfl h
    · simp [sentenceGroupsGo, h]
  | cons b bs ih =>
    intro i curStart curText _
    rw [sentenceGroupsGo]
    split
    · simp
    · exact ih (i + 1) curStart (curText ++ [b.text]) (Or.inr (by simp))

theorem sentenceGroupsGo_head (maxChars : ℕ) :
    ∀ (rest : List SRTBlock) (i curStart : ℕ) (curText : List Str),
    rest ≠ [] ∨ curText ≠ [] →
    ∃ g gs, sentenceGroupsGo maxChars rest i curStart curText = g :: gs ∧ g.1 = curStart := by
  intro rest
  induction rest with
  | nil =>
    intro i curStart curText h
    rcases h with h | h
    · exact absurd rfl h
    · refine ⟨(curStart, i - 1, normalize_whitespace (joinSpace curText)), [], ?_, rfl⟩
      simp [sentenceGroupsGo, h]
  | cons b bs ih =>
    intro i curStart curText _
    rw [sentenceGroupsGo]
    split
    · exact ⟨_, _, rfl, rfl⟩
    · exact ih (i + 1) curStart (curText ++ [b.text]) (Or.inr (by simp))

theorem sentenceGroupsGo_flatten (maxChars : ℕ) :
    ∀ (rest : List SRTBlock) (i curStart : ℕ) (curText : List Str),
    (curText = [] → curStart = i) → (curText ≠ [] → curStart < i) →
    ((sentenceGroupsGo maxChars rest i curStart curText).map
        (fun g => List.range' g.1 (g.2.1 + 1 - g.1))).flatten
      = List.range' curStart (i - curStart + rest.length) := by
  intro rest
  induction rest with
  | nil =>
    intro i curStart curText h0 h1
    by_cases hct : curText = []
    · have := h0 hct
      subst this
      simp [sentenceGroupsGo, hct]
    · have hlt := h1 hct
      simp only [sentenceGroupsGo, if_neg hct, List.map_cons, List.map_nil,
        List.flatten_cons, List.flatten_nil, List.append_nil, List.length_nil]
      congr 1
      omega
  | cons b bs ih =>
    intro i curStart curText h0 h1
    have hle : curStart ≤ i := by
      by_cases hct : curText = []
      · exact le_of_eq (h0 hct)
      · exact le_of_lt (h1 hct)
    rw [sentenceGroupsGo]
    split
    · rw [List.map_cons, List.flatten_cons,
        ih (i + 1) (i + 1) [] (fun _ => rfl) (fun hc => absurd rfl hc)]
      have h2 : (i + 1) - (i + 1) + bs.length = bs.length := by omega
      rw [h2]
      have h3 : List.range' curStart (i + 1 - curStart) ++
          List.range' (curStart + 1 * (i + 1 - curStart)) bs.length
          = List.range' curStart (bs.length + (i + 1 - curStart)) :=
        List.range'_append curStart (i + 1 - curStart) bs.length 1
      have h4 : curStart + 1 * (i + 1 - curStart) = i + 1 := by omega
      rw [h4] at h3
      rw [h3]
      congr 1
      simp only [List.length_cons]
      omega
    · rw [ih (i + 1) curStart (curText ++ [b.text])
        (by simp) (fun _ => by omega)]
      congr 1
      simp only [List.length_cons]
      omega

theorem sentenceGroupsGo_le (maxChars : ℕ) :
    ∀ (rest : List SRTBlock) (i curStart : ℕ) (curText : List Str),
    (curText = [] → curStart = i) → (curText ≠ [] → curStart < i) →
    ∀ g ∈ sentenceGroupsGo maxChars rest i curStart curText, g.1 ≤ g.2.1 := by
  intro rest
  induction rest with
  | nil =>
    intro i curStart curText h0 h1 g hg
    by_cases hct : curText = []
    · simp [sentenceGroupsGo, hct] at hg
    · have hlt := h1 hct
      simp only [sentenceGroupsGo, if_neg hct, List.mem_singleton] at hg
      subst hg
      simp only []
      omega
  | cons b bs ih =>
    intro i curStart curText h0 h1 g hg
    have hle : curStart ≤ i := by
      by_cases hct : curText = []
      · exact le_of_eq (h0 hct)
      · exact le_of_lt (h1 hct)
    rw [sentenceGroupsGo] at hg
    split at hg
    · rcases List.mem_cons.mp hg with hg | hg
      · subst hg
        exact hle
      · exact ih (i + 1) (i + 1) [] (fun _ => rfl) (fun hc => absurd rfl hc) g hg
    · exact ih (i + 1) curStart (curText ++ [b.text]) (by simp) (fun _ => by omega) g hg

theorem sentenceGroupsGo_last (maxChars : ℕ) :
    ∀ (rest : List SRTBlock) (i curStart : ℕ) (curText : List Str),
    rest ≠ [] ∨ curText ≠ [] →
    (sentenceGroupsGo maxChars rest i curStart curText).getLast?.map (fun g => g.2.1)
      = some (i + rest.length - 1) := by
  intro rest
  induction rest with
  | nil =>
    intro i curStart curText h
    rcases h with h | h
    · exact absurd rfl h
    · simp [sentenceGroupsGo, h]
  | cons b bs ih =>
    intro i curStart curText _
    rw [sentenceGroupsGo]
    split
    · by_cases hbs : bs = []
      · subst hbs
        simp [sentenceGroupsGo]
      · obtain ⟨g, gs, hgg, _⟩ := sentenceGroupsGo_head maxChars bs (i + 1) (i + 1) [] (Or.inl hbs)
        rw [hgg, List.getLast?_cons_cons, ← hgg, ih (i + 1) (i + 1) [] (Or.inl hbs)]
        congr 1
        simp only [List.length_cons]
        omega
    · rw [ih (i + 1) curStart (curText ++ [b.text]) (Or.inr (by simp))]
      congr 1
      simp only [List.length_cons]
      omega

/-- C3.  The sentence grouper's output ranges partition the positions
`[0, len(cues))` exactly: flattening the closed ranges of the groups in
order yields exactly `[0, ..., len-1]`; each group's range is nonempty
(start ≤ end); the first group starts at 0 and the last group ends at
`len - 1`; an empty input yields no groups. -/
theorem sentence_groups_partition (maxChars : ℕ) (blocks : List SRTBlock) :
    ((split_into_sentence_groups blocks maxChars).map
        (fun g => List.range' g.1 (g.2.1 + 1 - g.1))).flatten = List.range blocks.length
  ∧ (∀ g ∈ split_into_sentence_groups blocks maxChars, g.1 ≤ g.2.1)
  ∧ split_into_sentence_groups [] maxChars = []
  ∧ (blocks ≠ [] → ∃ g gs, split_into_sentence_groups blocks maxChars = g :: gs ∧ g.1 = 0)
  ∧ (blocks ≠ [] → (split_into_sentence_groups blocks maxChars).getLast?.map (fun g => g.2.1)
        = some (blocks.length - 1)) := by
  refine ⟨?_, ?_, rfl, ?_, ?_⟩
  · rw [split_into_sentence_groups,
      sentenceGroupsGo_flatten maxChars blocks 0 0 [] (fun _ => rfl) (fun hc => absurd rfl hc)]
    rw [List.range_eq_range']
    congr 1
    omega
  · exact sentenceGroupsGo_le maxChars blocks 0 0 [] (fun _ => rfl) (fun hc => absurd rfl hc)
  · intro hb
    exact sentenceGroupsGo_head maxChars blocks 0 0 [] (Or.inl hb)
  · intro hb
    have h := sentenceGroupsGo_last maxChars blocks 0 0 [] (Or.inl hb)
    simpa using h

/-- Witness for C3 on a concrete three-cue input ending in an
unterminated fragment. -/
theorem sentence_groups_partition_witness :
    ((split_into_sentence_groups
        [⟨1, "a".data, "b".data, "Hello.".data⟩,
         ⟨2, "a".data, "b".data, "How are".data⟩,
         ⟨3, "a".data, "b".data, "you".data⟩] 320).map
        (fun g => List.range' g.1 (g.2.1 + 1 - g.1))).flatten = List.range 3 :=
  (sentence_groups_partition 320
    [⟨1, "a".data, "b".data, "Hello.".data⟩,
     ⟨2, "a".data, "b".data, "How are".data⟩,
     ⟨3, "a".data, "b".data, "you".data⟩]).1

/-- C8.  When original and translated parse to the same non-zero segment
count, at least 3 original-nonempty segments have empty translations,
and at least half of those empty indices lie at or above 0.75 times the
maximum original index, `validate_translation` reports `drift_amount`
equal to the number of empty indices at or above that threshold,
`drift_start` equal to the index of the first empty segment strictly
past the sequence midpoint (falling back to the first empty index), and
`is_valid` false; with fewer than 3 empty segments, `drift_amount` is 0
and `drift_start` is None. -/
theorem validate_drift_heuristic (orig trans : List Segment) (thr : ℚ)
    (hlen : trans.length = orig.length) (h0 : orig ≠ []) :
    (3 ≤ (empty_indices orig trans).length →
      ((empty_indices orig trans).length : ℚ) * (1 / 2) ≤
        (((empty_indices orig trans).countP
            (fun idx : ℤ => decide ((maxIndex orig : ℚ) * (3 / 4) ≤ (idx : ℚ)))) : ℚ) →
      (validate_translation orig trans thr).drift_amount
          = (empty_indices orig trans).countP
              (fun idx : ℤ => decide ((maxIndex orig : ℚ) * (3 / 4) ≤ (idx : ℚ)))
        ∧ (validate_translation orig trans thr).drift_start
          = (match driftStartScan orig.length 0 orig trans with
             | some d => some d
             | none => (empty_indices orig trans).head?)
        ∧ (validate_translation orig trans thr).is_valid = false)
  ∧ ((empty_indices orig trans).length < 3 →
      (validate_translation orig trans thr).drift_amount = 0
        ∧ (validate_translation orig trans thr).drift_start = none) := by
  have htot : ¬ orig.length = 0 := fun hc => h0 (List.length_eq_zero.mp hc)
  have hlen' : ¬ trans.length ≠ orig.length := by simp [hlen]
  constructor
  · intro h3 hhalf
    unfold validate_translation
    rw [if_neg htot, if_neg hlen']
    dsimp only
    rw [if_pos h3, if_pos hhalf]
    refine ⟨rfl, rfl, ?_⟩
    dsimp only
    have h2 : 2 ≤ (empty_indices orig trans).countP
        (fun idx : ℤ => decide ((maxIndex orig : ℚ) * (3 / 4) ≤ (idx : ℚ))) := by
      by_contra hq
      push_neg at hq
      have hq1 : ((empty_indices orig trans).countP
          (fun idx : ℤ => decide ((maxIndex orig : ℚ) * (3 / 4) ≤ (idx : ℚ))) : ℚ) ≤ 1 := by
        have : (empty_indices orig trans).countP
            (fun idx : ℤ => decide ((maxIndex orig : ℚ) * (3 / 4) ≤ (idx : ℚ))) ≤ 1 := by omega
        exact_mod_cast this
      have h3' : (3 : ℚ) ≤ ((empty_indices orig trans).length : ℚ) := by exact_mod_cast h3
      linarith
    have hne0 : ((empty_indices orig trans).countP
        (fun idx : ℤ => decide ((maxIndex orig : ℚ) * (3 / 4) ≤ (idx : ℚ))) == 0) = false := by
      have : (empty_indices orig trans).countP
          (fun idx : ℤ => decide ((maxIndex orig : ℚ) * (3 / 4) ≤ (idx : ℚ))) ≠ 0 := by omega
      simpa using this
    rw [hne0, Bool.and_false]
  · intro hlt
    unfold validate_translation
    rw [if_neg htot, if_neg hlen']
    dsimp only
    rw [if_neg (by omega : ¬ 3 ≤ (empty_indices orig trans).length)]
    exact ⟨rfl, rfl⟩

/-- Witness for C8 on a concrete 4-segment pair with empties at indices
2, 3, 4 (threshold 3, midpoint 2). -/
theorem validate_drift_heuristic_witness :
    (validate_translation
        [⟨1, "ts".data, "a".data⟩, ⟨2, "ts".data, "b".data⟩,
         ⟨3, "ts".data, "c".data⟩, ⟨4, "ts".data, "d".data⟩]
        [⟨1, "ts".data, "x".data⟩, ⟨2, "ts".data, "".data⟩,
         ⟨3, "ts".data, "".data⟩, ⟨4, "ts".data, "".data⟩] 2).drift_amount
      = (empty_indices
          [⟨1, "ts".data, "a".data⟩, ⟨2, "ts".data, "b".data⟩,
           ⟨3, "ts".data, "c".data⟩, ⟨4, "ts".data, "d".data⟩]
          [⟨1, "ts".data, "x".data⟩, ⟨2, "ts".data, "".data⟩,
           ⟨3, "ts".data, "".data⟩, ⟨4, "ts".data, "".data⟩]).countP
          (fun idx : ℤ => decide ((maxIndex
              [⟨1, "ts".data, "a".data⟩, ⟨2, "ts".data, "b".data⟩,
               ⟨3, "ts".data, "c".data⟩, ⟨4, "ts".data, "d".data⟩] : ℚ) * (3 / 4) ≤ (idx : ℚ))) := by
  have hhalf : ((empty_indices
        [⟨1, "ts".data, "a".data⟩, ⟨2, "ts".data, "b".data⟩,
         ⟨3, "ts".data, "c".data⟩, ⟨4, "ts".data, "d".data⟩]
        [⟨1, "ts".data, "x".data⟩, ⟨2, "ts".data, "".data⟩,
         ⟨3, "ts".data, "".data⟩, ⟨4, "ts".data, "".data⟩]).length : ℚ) * (1 / 2) ≤
      (((empty_indices
          [⟨1, "ts".data, "a".data⟩, ⟨2, "ts".data, "b".data⟩,
           ⟨3, "ts".data, "c".data⟩, ⟨4, "ts".data, "d".data⟩]
          [⟨1, "ts".data, "x".data⟩, ⟨2, "ts".data, "".data⟩,
           ⟨3, "ts".data, "".data⟩, ⟨4, "ts".data, "".data⟩]).countP
          (fun idx : ℤ => decide ((maxIndex
              [⟨1, "ts".data, "a".data⟩, ⟨2, "ts".data, "b".data⟩,
               ⟨3, "ts".data, "c".data⟩, ⟨4, "ts".data, "d".data⟩] : ℚ) * (3 / 4) ≤ (idx : ℚ)))) : ℚ) := by
    have he : empty_indices
        [⟨1, "ts".data, "a".data⟩, ⟨2, "ts".data, "b".data⟩,
         ⟨3, "ts".data, "c".data⟩, ⟨4, "ts".data, "d".data⟩]
        [⟨1, "ts".data, "x".data⟩, ⟨2, "ts".data, "".data⟩,
         ⟨3, "ts".data, "".data⟩, ⟨4, "ts".data, "".data⟩] = [2, 3, 4] := by decide
    have hm : maxIndex
        [⟨1, "ts".data, "a".data⟩, ⟨2, "ts".data, "b".data⟩,
         ⟨3, "ts".data, "c".data⟩, ⟨4, "ts".data, "d".data⟩] = 4 := by decide
    rw [he, hm]
    norm_num [List.countP, List.countP.go]
  exact ((validate_drift_heuristic
      [⟨1, "ts".data, "a".data⟩, ⟨2, "ts".data, "b".data⟩,
       ⟨3, "ts".data, "c".data⟩, ⟨4, "ts".data, "d".data⟩]
      [⟨1, "ts".data, "x".data⟩, ⟨2, "ts".data, "".data⟩,
       ⟨3, "ts".data, "".data⟩, ⟨4, "ts".data, "".data⟩] 2
      (by decide) (by decide)).1 (by decide) hhalf).1

/-! ### Cache lemmas (C9) -/

theorem find_map_set (l : List (Str × Str)) (k v : Str) :
    (l.map (fun p => if p.1 == k then (p.1, v) else p)).find? (fun p => p.1 == k)
      = (l.find? (fun p => p.1 == k)).map (fun p => (p.1, v)) := by
  induction l with
  | nil => rfl
  | cons p ps ih =>
    by_cases hk : p.1 == k
    · simp [List.find?, hk, ih]
    · simp only [List.map_cons, if_neg hk]
      rw [List.find?_cons_of_neg _ (by simpa using hk), List.find?_cons_of_neg _ (by simpa using hk)]
      exact ih

theorem JsonCache.get_set_self (c : JsonCache) (k v : Str) : (c.set k v).get k = some v := by
  unfold JsonCache.set JsonCache.get
  by_cases hf : ((c.data.find? (fun p => p.1 == k)).isSome : Prop)
  · rw [if_pos hf]
    dsimp only
    rw [find_map_set]
    obtain ⟨p, hp⟩ := Option.isSome_iff_exists.mp hf
    rw [hp]
    rfl
  · rw [if_neg hf]
    dsimp only
    rw [List.find?_append]
    have hnone : c.data.find? (fun p => p.1 == k) = none := by
      cases h : c.data.find? (fun p => p.1 == k) with
      | none => rfl
      | some p => rw [h] at hf; simp at hf
    rw [hnone]
    simp [List.find?]

/-- C9 counterexample.  The claim states that translating the same
(provider, model, source, target, text) tuple twice issues exactly one
external provider call.  When the provider returns the empty string, the
`if cached:` truthiness test treats the stored value as a miss, and the
second identical call invokes the provider again: two calls, not one. -/
theorem cache_single_call_counterexample :
    ((cache_translate_text (fun _ => []) "openai".data "gpt-3.5-turbo".data
        "en".data "de".data ⟨[]⟩ "Hello.".data).2.2 +
     (cache_translate_text (fun _ => []) "openai".data "gpt-3.5-turbo".data
        "en".data "de".data
        (cache_translate_text (fun _ => []) "openai".data "gpt-3.5-turbo".data
          "en".data "de".data ⟨[]⟩ "Hello.".data).2.1
        "Hello.".data).2.2 = 2) ∧
    ¬ ((cache_translate_text (fun _ => []) "openai".data "gpt-3.5-turbo".data
        "en".data "de".data ⟨[]⟩ "Hello.".data).2.2 +
       (cache_translate_text (fun _ => []) "openai".data "gpt-3.5-turbo".data
        "en".data "de".data
        (cache_translate_text (fun _ => []) "openai".data "gpt-3.5-turbo".data
          "en".data "de".data ⟨[]⟩ "Hello.".data).2.1
        "Hello.".data).2.2 = 1) := by
  decide

/-- C9 (amended).  Provided the provider's translation of the text is
non-empty, translating the same (provider, model, source language,
target language, source text) tuple twice through the cached path issues
exactly one external provider call: the first call invokes the provider
once and stores the result under the deterministic fingerprint key, and
the second identical call is answered from the cache with zero provider
invocations. -/
theorem cache_single_call (oracle : Str → Str) (mdl source_lang target_lang : Str)
    (cache : JsonCache) (t : Str)
    (hfresh : cache.get (cache_key "openai".data mdl source_lang target_lang t) = none)
    (hne : oracle t ≠ []) :
    (cache_translate_text oracle "openai".data mdl source_lang target_lang cache t).2.2 = 1 ∧
    (cache_translate_text oracle "openai".data mdl source_lang target_lang cache t).1
      = Except.ok (oracle t) ∧
    (cache_translate_text oracle "openai".data mdl source_lang target_lang cache t).2.1.get
        (cache_key "openai".data mdl source_lang target_lang t) = some (oracle t) ∧
    (cache_translate_text oracle "openai".data mdl source_lang target_lang
        (cache_translate_text oracle "openai".data mdl source_lang target_lang cache t).2.1
        t).2.2 = 0 ∧
    (cache_translate_text oracle "openai".data mdl source_lang target_lang
        (cache_translate_text oracle "openai".data mdl source_lang target_lang cache t).2.1
        t).1 = Except.ok (oracle t) := by
  have hlow : lowerStr "openai".data = "openai".data := by decide
  have h1 : cache_translate_text oracle "openai".data mdl source_lang target_lang cache t
      = (Except.ok (oracle t),
         cache.set (cache_key "openai".data mdl source_lang target_lang t) (oracle t), 1) := by
    unfold cache_translate_text
    rw [hlow, if_pos rfl]
    dsimp only
    rw [hfresh]
  have hget := JsonCache.get_set_self cache
    (cache_key "openai".data mdl source_lang target_lang t) (oracle t)
  have h2 : cache_translate_text oracle "openai".data mdl source_lang target_lang
      (cache.set (cache_key "openai".data mdl source_lang target_lang t) (oracle t)) t
      = (Except.ok (oracle t),
         cache.set (cache_key "openai".data mdl source_lang target_lang t) (oracle t), 0) := by
    unfold cache_translate_text
    rw [hlow, if_pos rfl]
    dsimp only
    rw [hget]
    dsimp only
    rw [if_neg hne]
  rw [h1]
  dsimp only
  rw [h2]
  exact ⟨rfl, rfl, hget, rfl, rfl⟩

/-- Witness for C9 (amended) at a concrete translation request with a
fresh cache. -/
theorem cache_single_call_witness :
    (cache_translate_text (fun _ => "Hallo.".data) "openai".data "gpt-3.5-turbo".data
        "en".data "de".data ⟨[]⟩ "Hello.".data).2.2 = 1 ∧
    (cache_translate_text (fun _ => "Hallo.".data) "openai".data "gpt-3.5-turbo".data
        "en".data "de".data ⟨[]⟩ "Hello.".data).1 = Except.ok ((fun _ => "Hallo.".data) "Hello.".data) ∧
    (cache_translate_text (fun _ => "Hallo.".data) "openai".data "gpt-3.5-turbo".data
        "en".data "de".data ⟨[]⟩ "Hello.".data).2.1.get
        (cache_key "openai".data "gpt-3.5-turbo".data "en".data "de".data "Hello.".data)
      = some ((fun _ => "Hallo.".data) "Hello.".data) ∧
    (cache_translate_text (fun _ => "Hallo.".data) "openai".data "gpt-3.5-turbo".data
        "en".data "de".data
        (cache_translate_text (fun _ => "Hallo.".data) "openai".data "gpt-3.5-turbo".data
          "en".data "de".data ⟨[]⟩ "Hello.".data).2.1
        "Hello.".data).2.2 = 0 ∧
    (cache_translate_text (fun _ => "Hallo.".data) "openai".data "gpt-3.5-turbo".data
        "en".data "de".data
        (cache_translate_text (fun _ => "Hallo.".data) "openai".data "gpt-3.5-turbo".data
          "en".data "de".data ⟨[]⟩ "Hello.".data).2.1
        "Hello.".data).1 = Except.ok ((fun _ => "Hallo.".data) "Hello.".data) :=
  cache_single_call (fun _ => "Hallo.".data) "gpt-3.5-turbo".data "en".data "de".data
    ⟨[]⟩ "Hello.".data (by decide) (by decide)

/-! ### Dispatch lemmas (C2) -/

theorem dispatch_auto (env : TransEnv) (tgt : Str) (vp : Option Str) :
    translate_srt_dispatch env "auto".data tgt vp
      = autoGo env tgt vp (get_auto_fallback_order env.fallbackRaw) none := by
  unfold translate_srt_dispatch
  rw [if_pos rfl]

theorem dispatch_google (env : TransEnv) (tgt : Str) (vp : Option Str) :
    translate_srt_dispatch env "google".data tgt vp
      = (if env.translatorsAvailable = true then (env.googleOutcome, [Prov.google])
         else (Except.error ("Übersetzungsmethode ".data ++ "google".data ++
           " nicht verfügbar oder Video-Pfad fehlt".data), [])) := by
  unfold translate_srt_dispatch
  rw [if_neg (by decide), if_neg (fun h => absurd h.1 (by decide)),
    if_neg (fun h => absurd h.1 (by decide))]
  by_cases h : env.translatorsAvailable = true
  · rw [if_pos ⟨rfl, h⟩, if_pos h]
  · rw [if_neg (fun hc => h hc.2), if_neg h]

theorem dispatch_whisper (env : TransEnv) (tgt : Str) (vp : Option Str) :
    translate_srt_dispatch env "whisper".data tgt vp
      = (if env.whisperAvailable = true ∧ vp ≠ none then
           (if tgt ≠ "en".data then
             (Except.error ("Whisper kann nur nach Englisch (en) übersetzen, nicht nach ".data ++
               tgt ++ ". Verwende stattdessen google oder openai Methode.".data), [])
            else (env.whisperOutcome, [Prov.whisper]))
         else (Except.error ("Übersetzungsmethode ".data ++ "whisper".data ++
           " nicht verfügbar oder Video-Pfad fehlt".data), [])) := by
  unfold translate_srt_dispatch
  rw [if_neg (by decide), if_neg (fun h => absurd h.1 (by decide))]
  by_cases h : env.whisperAvailable = true ∧ vp ≠ none
  · rw [if_pos ⟨rfl, h.1, h.2⟩, if_pos h]
  · rw [if_neg (fun hc => h ⟨hc.2.1, hc.2.2⟩), if_neg h,
      if_neg (fun hc => absurd hc.1 (by decide))]

theorem dispatch_openai (env : TransEnv) (tgt : Str) (vp : Option Str) :
    translate_srt_dispatch env "openai".data tgt vp
      = (if env.smartAvailable = true then attemptOpenai env
         else (Except.error ("Übersetzungsmethode ".data ++ "openai".data ++
           " nicht verfügbar oder Video-Pfad fehlt".data), [])) := by
  unfold translate_srt_dispatch
  rw [if_neg (by decide)]
  by_cases h : env.smartAvailable = true
  · rw [if_pos ⟨rfl, h⟩, if_pos h]
  · rw [if_neg (fun hc => h hc.2), if_neg (fun hc => absurd hc.1 (by decide)),
      if_neg (fun hc => absurd hc.1 (by decide)), if_neg h]

theorem candAtt_google (env : TransEnv) : candidateAttempt env "google".data = env.googleOutcome := by
  unfold candidateAttempt
  rw [if_neg (by decide), if_pos rfl]

theorem candAtt_whisper (env : TransEnv) : candidateAttempt env "whisper".data = env.whisperOutcome := by
  unfold candidateAttempt
  rw [if_neg (by decide), if_neg (by decide)]

theorem candAtt_openai (env : TransEnv) : candidateAttempt env "openai".data = (attemptOpenai env).1 := by
  unfold candidateAttempt
  rw [if_pos rfl]

theorem precond_google (env : TransEnv) (tgt : Str) (vp : Option Str) :
    explicitPrecond env "google".data tgt vp = (env.translatorsAvailable = true) := by
  unfold explicitPrecond
  rw [if_neg (by decide), if_pos rfl]

theorem precond_whisper (env : TransEnv) (tgt : Str) (vp : Option Str) :
    explicitPrecond env "whisper".data tgt vp
      = (env.whisperAvailable = true ∧ vp ≠ none ∧ tgt = "en".data) := by
  unfold explicitPrecond
  rw [if_neg (by decide), if_neg (by decide)]

theorem precond_openai (env : TransEnv) (tgt : Str) (vp : Option Str) :
    explicitPrecond env "openai".data tgt vp = (env.smartAvailable = true) := by
  unfold explicitPrecond
  rw [if_pos rfl]

/-- The outcome the AUTO loop is specified to produce when every
eligible candidate fails: the error of the last eligible candidate in
order, else the carried last error, else the generic failure. -/
def autoExpected (env : TransEnv) (tgt : Str) (vp : Option Str)
    (ms : List Str) (lastErr : Option Str) : Except Str Str :=
  match ms.reverse.find? (fun k => decide (eligibleCandidate env tgt vp k)) with
  | some m => Except.error (errOf (candidateAttempt env m))
  | none =>
    match lastErr with
    | some e => Except.error e
    | none => Except.error "No available translation method succeeded in AUTO mode".data

theorem autoGo_all_fail (env : TransEnv) (tgt : Str) (vp : Option Str) :
    ∀ (ms : List Str) (lastErr : Option Str),
    (∀ k ∈ ms, eligibleCandidate env tgt vp k →
      ∃ e, candidateAttempt env k = Except.error e) →
    (autoGo env tgt vp ms lastErr).1 = autoExpected env tgt vp ms lastErr := by
  intro ms
  induction ms with
  | nil =>
    intro lastErr _
    cases lastErr <;> rfl
  | cons m ms ih =>
    intro lastErr hfail
    have hfail' : ∀ k ∈ ms, eligibleCandidate env tgt vp k →
        ∃ e, candidateAttempt env k = Except.error e :=
      fun k hk => hfail k (List.mem_cons_of_mem m hk)
    have hexp : ∀ le, autoExpected env tgt vp (m :: ms) le
        = (match (ms.reverse.find? (fun k => decide (eligibleCandidate env tgt vp k))).or
            ([m].find? (fun k => decide (eligibleCandidate env tgt vp k))) with
           | some m' => Except.error (errOf (candidateAttempt env m'))
           | none =>
             match le with
             | some e => Except.error e
             | none => Except.error "No available translation method succeeded in AUTO mode".data) := by
      intro le
      unfold autoExpected
      rw [List.reverse_cons, List.find?_append]
    rw [autoGo]
    by_cases hA : m = "openai".data ∧ env.smartAvailable = true
    · rw [if_pos hA]
      have helig : eligibleCandidate env tgt vp m := Or.inl hA
      obtain ⟨e, he⟩ := hfail m (List.mem_cons_self m ms) helig
      have hatt : (attemptOpenai env).1 = Except.error e := by
        rw [← candAtt_openai env, ← hA.1]
        exact he
      cases hat : attemptOpenai env with
      | mk fst snd =>
        rw [hat] at hatt
        dsimp only at hatt
        subst hatt
        dsimp only
        rw [ih (some e) hfail', hexp lastErr]
        unfold autoExpected
        cases hf : ms.reverse.find? (fun k => decide (eligibleCandidate env tgt vp k)) with
        | some m' => rfl
        | none =>
          have hfm : [m].find? (fun k => decide (eligibleCandidate env tgt vp k)) = some m := by
            simp [List.find?, decide_eq_true helig]
          rw [hfm]
          show Except.error e = Except.error (errOf (candidateAttempt env m))
          rw [he]
          rfl
    · rw [if_neg hA]
      by_cases hB : m = "google".data ∧ env.translatorsAvailable = true
      · rw [if_pos hB]
        have helig : eligibleCandidate env tgt vp m := Or.inr (Or.inl hB)
        obtain ⟨e, he⟩ := hfail m (List.mem_cons_self m ms) helig
        have hatt : env.googleOutcome = Except.error e := by
          rw [← candAtt_google env, ← hB.1]
          exact he
        rw [hatt]
        dsimp only
        rw [ih (some e) hfail', hexp lastErr]
        unfold autoExpected
        cases hf : ms.reverse.find? (fun k => decide (eligibleCandidate env tgt vp k)) with
        | some m' => rfl
        | none =>
          have hfm : [m].find? (fun k => decide (eligibleCandidate env tgt vp k)) = some m := by
            simp [List.find?, decide_eq_true helig]
          rw [hfm]
          show Except.error e = Except.error (errOf (candidateAttempt env m))
          rw [he]
          rfl
      · rw [if_neg hB]
        by_cases hC : m = "whisper".data ∧ env.whisperAvailable = true ∧ vp ≠ none ∧
            tgt = "en".data
        · rw [if_pos hC]
          have helig : eligibleCandidate env tgt vp m := Or.inr (Or.inr hC)
          obtain ⟨e, he⟩ := hfail m (List.mem_cons_self m ms) helig
          have hatt : env.whisperOutcome = Except.error e := by
            rw [← candAtt_whisper env, ← hC.1]
            exact he
          rw [hatt]
          dsimp only
          rw [ih (some e) hfail', hexp lastErr]
          unfold autoExpected
          cases hf : ms.reverse.find? (fun k => decide (eligibleCandidate env tgt vp k)) with
          | some m' => rfl
          | none =>
            have hfm : [m].find? (fun k => decide (eligibleCandidate env tgt vp k)) = some m := by
              simp [List.find?, decide_eq_true helig]
            rw [hfm]
            show Except.error e = Except.error (errOf (candidateAttempt env m))
            rw [he]
            rfl
        · rw [if_neg hC]
          have hnelig : ¬ eligibleCandidate env tgt vp m := by
            intro hcon
            rcases hcon with h | h | h
            · exact hA h
            · exact hB h
            · exact hC h
          rw [ih lastErr hfail', hexp lastErr]
          unfold autoExpected
          have hfm : [m].find? (fun k => decide (eligibleCandidate env tgt vp k)) = none := by
            simp [List.find?, decide_eq_false hnelig]
          rw [hfm]
          cases hf : ms.reverse.find? (fun k => decide (eligibleCandidate env tgt vp k)) with
          | some m' => rfl
          | none => rfl

/-- C2.  For every explicit single-method request (method exactly
"google", "whisper", or "openai"), `translate_srt` never invokes a
provider other than the requested one; if the requested provider fails
or its preconditions are unmet, an error propagates to the caller.  Only
method "auto" iterates over fallback candidates, and when every eligible
candidate fails it raises the last error encountered (the error of the
last eligible candidate in the fallback order). -/
theorem translate_srt_no_silent_substitution (env : TransEnv) (tgt : Str) (vp : Option Str) :
    (∀ m, (m = "google".data ∨ m = "whisper".data ∨ m = "openai".data) →
      (∀ p ∈ (translate_srt_dispatch env m tgt vp).2, p = explicitProv m) ∧
      (∀ s, (translate_srt_dispatch env m tgt vp).1 = Except.ok s →
        candidateAttempt env m = Except.ok s) ∧
      (∀ e, explicitPrecond env m tgt vp → candidateAttempt env m = Except.error e →
        (translate_srt_dispatch env m tgt vp).1 = Except.error e) ∧
      (¬ explicitPrecond env m tgt vp →
        ∃ e, (translate_srt_dispatch env m tgt vp).1 = Except.error e)) ∧
    (∀ m, (∀ k ∈ get_auto_fallback_order env.fallbackRaw,
          eligibleCandidate env tgt vp k → ∃ e, candidateAttempt env k = Except.error e) →
      (get_auto_fallback_order env.fallbackRaw).reverse.find?
          (fun k => decide (eligibleCandidate env tgt vp k)) = some m →
      (translate_srt_dispatch env "auto".data tgt vp).1
        = Except.error (errOf (candidateAttempt env m))) := by
  constructor
  · intro m hm
    rcases hm with hm | hm | hm
    · subst hm
      rw [dispatch_google, candAtt_google, precond_google]
      by_cases htr : env.translatorsAvailable = true
      · rw [if_pos htr]
        refine ⟨?_, ?_, ?_, ?_⟩
        · intro p hp
          simp only [List.mem_singleton] at hp
          subst hp
          decide
        · intro s hs
          exact hs
        · intro e _ herr
          exact herr
        · intro hnpre
          exact absurd htr hnpre
      · rw [if_neg htr]
        refine ⟨?_, ?_, ?_, ?_⟩
        · intro p hp
          simp at hp
        · intro s hs
          simp at hs
        · intro e hpre _
          exact absurd hpre htr
        · intro _
          exact ⟨_, rfl⟩
    · subst hm
      rw [dispatch_whisper, candAtt_whisper, precond_whisper]
      by_cases hw : env.whisperAvailable = true ∧ vp ≠ none
      · rw [if_pos hw]
        by_cases hten : tgt = "en".data
        · rw [if_neg (fun hc => hc hten)]
          refine ⟨?_, ?_, ?_, ?_⟩
          · intro p hp
            simp only [List.mem_singleton] at hp
            subst hp
            decide
          · intro s hs
            exact hs
          · intro e _ herr
            exact herr
          · intro hnpre
            exact absurd ⟨hw.1, hw.2, hten⟩ hnpre
        · rw [if_pos hten]
          refine ⟨?_, ?_, ?_, ?_⟩
          · intro p hp
            simp at hp
          · intro s hs
            simp at hs
          · intro e hpre _
            exact absurd hpre.2.2 hten
          · intro _
            exact ⟨_, rfl⟩
      · rw [if_neg hw]
        refine ⟨?_, ?_, ?_, ?_⟩
        · intro p hp
          simp at hp
        · intro s hs
          simp at hs
        · intro e hpre _
          exact absurd ⟨hpre.1, hpre.2.1⟩ hw
        · intro _
          exact ⟨_, rfl⟩
    · subst hm
      rw [dispatch_openai, candAtt_openai, precond_openai]
      by_cases hsm : env.smartAvailable = true
      · rw [if_pos hsm]
        refine ⟨?_, ?_, ?_, ?_⟩
        · intro p hp
          unfold attemptOpenai at hp
          split at hp
          · simp only [List.mem_singleton] at hp
            subst hp
            decide
          · simp at hp
        · intro s hs
          exact hs
        · intro e _ herr
          exact herr
        · intro hnpre
          exact absurd hsm hnpre
      · rw [if_neg hsm]
        refine ⟨?_, ?_, ?_, ?_⟩
        · intro p hp
          simp at hp
        · intro s hs
          simp at hs
        · intro e hpre _
          exact absurd hpre hsm
        · intro _
          exact ⟨_, rfl⟩
  · intro m hall hfind
    rw [dispatch_auto]
    rw [autoGo_all_fail env tgt vp _ none hall]
    unfold autoExpected
    rw [hfind]

/-- Witness for C2: an explicit "google" request whose backend fails
surfaces exactly that error, and an AUTO run in which the only eligible
candidate (google) fails raises its error as the last one encountered. -/
theorem translate_srt_no_silent_substitution_witness :
    (translate_srt_dispatch
        ⟨false, false, true, false, none, Except.error "oe".data,
         Except.error "boom".data, Except.error "we".data⟩
        "google".data "de".data none).1 = Except.error "boom".data ∧
    (translate_srt_dispatch
        ⟨false, false, true, false, none, Except.error "oe".data,
         Except.error "boom".data, Except.error "we".data⟩
        "auto".data "de".data none).1
      = Except.error (errOf (candidateAttempt
          ⟨false, false, true, false, none, Except.error "oe".data,
           Except.error "boom".data, Except.error "we".data⟩ "google".data)) := by
  constructor
  · exact ((translate_srt_no_silent_substitution
        ⟨false, false, true, false, none, Except.error "oe".data,
         Except.error "boom".data, Except.error "we".data⟩ "de".data none).1
        "google".data (Or.inl rfl)).2.2.1 "boom".data
        (by rw [precond_google]) (by rw [candAtt_google])
  · refine (translate_srt_no_silent_substitution
        ⟨false, false, true, false, none, Except.error "oe".data,
         Except.error "boom".data, Except.error "we".data⟩ "de".data none).2
        "google".data ?_ (by decide)
    intro k hk helig
    have horder : get_auto_fallback_order
        (TransEnv.fallbackRaw ⟨false, false, true, false, none, Except.error "oe".data,
          Except.error "boom".data, Except.error "we".data⟩)
        = ["openai".data, "google".data, "whisper".data] := by decide
    rw [horder] at hk
    fin_cases hk
    · rcases helig with ⟨_, h⟩ | ⟨h, _⟩ | ⟨h, _⟩
      · simp at h
      · exact absurd h (by decide)
      · exact absurd h (by decide)
    · exact ⟨"boom".data, by rw [candAtt_google]⟩
    · rcases helig with ⟨h, _⟩ | ⟨h, _⟩ | ⟨_, _, h, _⟩
      · exact absurd h (by decide)
      · exact absurd h (by decide)
      · exact absurd rfl h

/-! ### Round-trip lemmas (C6) -/

theorem digitChar_spec (m : ℕ) (hm : m < 10) :
    isDigitChar (Char.ofNat (48 + m)) = true ∧ (Char.ofNat (48 + m)).toNat = 48 + m ∧
    pyIsSpace (Char.ofNat (48 + m)) = false := by
  interval_cases m <;> exact ⟨rfl, rfl, rfl⟩

theorem natDigitsGo_spec (fuel : ℕ) : ∀ n, n < fuel →
    natDigitsGo fuel n ≠ [] ∧ (∀ c ∈ natDigitsGo fuel n, isDigitChar c = true) ∧
    parseNat (natDigitsGo fuel n) = n := by
  induction fuel with
  | zero =>
    intro n hn
    omega
  | succ f ih =>
    intro n hn
    by_cases h10 : n < 10
    · rw [natDigitsGo, if_pos h10]
      obtain ⟨hd, ht, _⟩ := digitChar_spec n h10
      refine ⟨by simp, ?_, ?_⟩
      · intro c hc
        simp only [List.mem_singleton] at hc
        subst hc
        exact hd
      · unfold parseNat
        simp [List.foldl, ht]
    · rw [natDigitsGo, if_neg h10]
      have hdiv : n / 10 < f := by omega
      obtain ⟨hne, hdig, hval⟩ := ih (n / 10) hdiv
      obtain ⟨hd, ht, _⟩ := digitChar_spec (n % 10) (Nat.mod_lt _ (by norm_num))
      refine ⟨by simp, ?_, ?_⟩
      · intro c hc
        rcases List.mem_append.mp hc with hc | hc
        · exact hdig c hc
        · simp only [List.mem_singleton] at hc
          subst hc
          exact hd
      · unfold parseNat at hval ⊢
        rw [List.foldl_append]
        simp only [List.foldl]
        rw [hval, ht]
        omega

theorem natDigits_spec (n : ℕ) :
    natDigits n ≠ [] ∧ (∀ c ∈ natDigits n, isDigitChar c = true) ∧
    parseNat (natDigits n) = n :=
  natDigitsGo_spec (n + 1) n (Nat.lt_succ_self n)

theorem takeWhile_append_stop {p : Char → Bool} :
    ∀ (a : Str) (b0 : Char) (bs : Str), (∀ c ∈ a, p c = true) → p b0 = false →
    (a ++ b0 :: bs).takeWhile p = a ∧ (a ++ b0 :: bs).dropWhile p = b0 :: bs := by
  intro a
  induction a with
  | nil =>
    intro b0 bs _ hb
    constructor
    · rw [List.nil_append, List.takeWhile_cons_of_neg (by simp [hb])]
    · rw [List.nil_append, List.dropWhile_cons_of_neg (by simp [hb])]
  | cons c cs ih =>
    intro b0 bs ha hb
    have hc : p c = true := ha c (List.mem_cons_self c cs)
    have ih' := ih b0 bs (fun d hd => ha d (List.mem_cons_of_mem c hd)) hb
    constructor
    · rw [List.cons_append, List.takeWhile_cons_of_pos (by simp [hc]), ih'.1]
    · rw [List.cons_append, List.dropWhile_cons_of_pos (by simp [hc]), ih'.2]

theorem digit_not_space (c : Char) (h : isDigitChar c = true) : pyIsSpace c = false := by
  simp only [isDigitChar, Bool.and_eq_true, decide_eq_true_eq, Nat.le_iff_lt_or_eq] at h
  simp only [pyIsSpace, Bool.or_eq_false_iff, beq_eq_false_iff_ne, ne_eq]
  omega

theorem isTSpattern_shape (t : Str) (h : isTSpattern t = true) :
    t.length = 12 ∧ ∃ c cs, t = c :: cs ∧ isDigitChar c = true := by
  unfold isTSpattern at h
  split at h
  · rename_i a b c d e f g hh i j k l
    simp only [Bool.and_eq_true] at h
    exact ⟨rfl, a, _, rfl, h.1.1.1.1.1.1.1.1.1.1.1⟩
  · exact absurd h (by simp)

theorem matchTimestamp_append (t r : Str) (h : isTSpattern t = true) :
    matchTimestamp (t ++ r) = some (t, r) := by
  have hlen := (isTSpattern_shape t h).1
  unfold matchTimestamp
  have htake : (t ++ r).take 12 = t := by
    rw [← hlen]
    exact List.take_left t r
  have hdrop : (t ++ r).drop 12 = r := by
    rw [← hlen]
    exact List.drop_left t r
  rw [htake, hdrop, if_pos h]

theorem takeUntilBlank_append (text z : Str) (h : '\n' ∉ text) :
    takeUntilBlank (text ++ '\n' :: '\n' :: z) = (text, '\n' :: '\n' :: z) := by
  induction text with
  | nil =>
    rw [List.nil_append, takeUntilBlank]
    rw [if_pos ⟨rfl, rfl⟩]
  | cons c cs ih =>
    have hc : c ≠ '\n' := fun hcc => h (hcc ▸ List.mem_cons_self c cs)
    have ih' := ih (fun hm => h (List.mem_cons_of_mem c hm))
    rw [List.cons_append, takeUntilBlank, if_neg (fun hcon => hc hcon.1)]
    dsimp only
    rw [ih']

theorem splitWordsAux_good : ∀ (s : Str) (acc : Str),
    (∀ c ∈ acc, pyIsSpace c = false) →
    ∀ w ∈ splitWordsAux s acc, w ≠ [] ∧ ∀ c ∈ w, pyIsSpace c = false := by
  intro s
  induction s with
  | nil =>
    intro acc hacc w hw
    by_cases h : acc = []
    · simp [splitWordsAux, h] at hw
    · simp only [splitWordsAux, if_neg h, List.mem_singleton] at hw
      subst hw
      exact ⟨h, hacc⟩
  | cons c cs ih =>
    intro acc hacc w hw
    rw [splitWordsAux] at hw
    by_cases hsp : pyIsSpace c
    · rw [if_pos hsp] at hw
      by_cases h : acc = []
      · rw [if_pos h] at hw
        exact ih [] (by simp) w hw
      · rw [if_neg h] at hw
        rcases List.mem_cons.mp hw with hw | hw
        · subst hw
          exact ⟨h, hacc⟩
        · exact ih [] (by simp) w hw
    · rw [if_neg hsp] at hw
      refine ih (acc ++ [c]) ?_ w hw
      intro d hd
      rcases List.mem_append.mp hd with hd | hd
      · exact hacc d hd
      · simp only [List.mem_singleton] at hd
        subst hd
        simpa using hsp

theorem splitWords_good (s : Str) :
    ∀ w ∈ splitWords s, w ≠ [] ∧ ∀ c ∈ w, pyIsSpace c = false :=
  splitWordsAux_good s [] (by simp)

theorem mem_joinSpace : ∀ (ws : List Str) (c : Char), c ∈ joinSpace ws →
    c = ' ' ∨ ∃ w ∈ ws, c ∈ w := by
  intro ws
  induction ws with
  | nil =>
    intro c hc
    simp [joinSpace] at hc
  | cons w ws ih =>
    intro c hc
    cases ws with
    | nil =>
      right
      exact ⟨w, by simp, by simpa [joinSpace] using hc⟩
    | cons w2 ws2 =>
      have hj : joinSpace (w :: w2 :: ws2) = w ++ ' ' :: joinSpace (w2 :: ws2) := rfl
      rw [hj] at hc
      rcases List.mem_append.mp hc with hc | hc
      · exact Or.inr ⟨w, by simp, hc⟩
      · rcases List.mem_cons.mp hc with hc | hc
        · exact Or.inl hc
        · rcases ih c hc with hc | ⟨w', hw', hcw⟩
          · exact Or.inl hc
          · exact Or.inr ⟨w', List.mem_cons_of_mem _ hw', hcw⟩

theorem normalize_no_newline (t : Str) : '\n' ∉ normalize_whitespace t := by
  intro hmem
  unfold normalize_whitespace at hmem
  rcases mem_joinSpace _ '\n' hmem with h | ⟨w, hw, hcw⟩
  · exact absurd h (by decide)
  · have := (splitWords_good _ w hw).2 '\n' hcw
    exact absurd this (by decide)

theorem map_newline_id (t : Str) (h : '\n' ∉ t) :
    t.map (fun c => if c == '\n' then ' ' else c) = t := by
  induction t with
  | nil => rfl
  | cons c cs ih =>
    have hc : c ≠ '\n' := fun hcc => h (hcc ▸ List.mem_cons_self c cs)
    rw [List.map_cons, ih (fun hm => h (List.mem_cons_of_mem c hm)),
      if_neg (by simpa using hc)]

/-- A block that `write_srt` then `parse_srt` reproduces verbatim:
well-formed timestamps, and non-empty text that is already
whitespace-normalized (hence newline-free). -/
def GoodBlock (b : SRTBlock) : Prop :=
  isTSpattern b.start = true ∧ isTSpattern b.end_ = true ∧ b.text ≠ [] ∧
  normalize_whitespace b.text = b.text

instance (b : SRTBlock) : Decidable (GoodBlock b) := by
  unfold GoodBlock
  infer_instance

theorem matchEntry_write_block (b : SRTBlock) (z : Str) (hb : GoodBlock b) :
    matchEntry (write_block b ++ z) = some (b, '\n' :: '\n' :: z) := by
  obtain ⟨hts1, hts2, htne, htnorm⟩ := hb
  have htextnl : '\n' ∉ b.text := by
    rw [← htnorm]
    exact normalize_no_newline b.text
  obtain ⟨hdne, hddig, hdval⟩ := natDigits_spec b.index
  obtain ⟨_, c0, cs0, hstart, hc0⟩ := isTSpattern_shape b.start hts1
  have hshape : write_block b ++ z
      = natDigits b.index ++ '\n' ::
          (b.start ++ ' ' :: '-' :: '-' :: '>' :: ' ' ::
            (b.end_ ++ '\n' :: (b.text ++ '\n' :: '\n' :: z))) := by
    unfold write_block
    simp [List.append_assoc]
  rw [hshape]
  unfold matchEntry
  have htake := takeWhile_append_stop (p := isDigitChar) (natDigits b.index) '\n'
    (b.start ++ ' ' :: '-' :: '-' :: '>' :: ' ' :: (b.end_ ++ '\n' :: (b.text ++ '\n' :: '\n' :: z)))
    hddig (by decide)
  rw [htake.1, htake.2]
  rw [if_neg (by simpa using hdne)]
  have hsp : ∀ c ∈ ['\n'], pyIsSpace c = true := by decide
  have hspstop : pyIsSpace c0 = false := digit_not_space c0 hc0
  have htake2 := takeWhile_append_stop (p := pyIsSpace) ['\n'] c0
    (cs0 ++ ' ' :: '-' :: '-' :: '>' :: ' ' :: (b.end_ ++ '\n' :: (b.text ++ '\n' :: '\n' :: z)))
    hsp hspstop
  have hrw : '\n' :: (b.start ++ ' ' :: '-' :: '-' :: '>' :: ' ' ::
      (b.end_ ++ '\n' :: (b.text ++ '\n' :: '\n' :: z)))
      = ['\n'] ++ c0 :: (cs0 ++ ' ' :: '-' :: '-' :: '>' :: ' ' ::
        (b.end_ ++ '\n' :: (b.text ++ '\n' :: '\n' :: z))) := by
    rw [hstart]
    simp
  rw [hrw, htake2.1, htake2.2]
  rw [if_neg (by simp)]
  rw [if_neg (by simp)]
  have hstart' : c0 :: (cs0 ++ ' ' :: '-' :: '-' :: '>' :: ' ' ::
      (b.end_ ++ '\n' :: (b.text ++ '\n' :: '\n' :: z)))
      = b.start ++ ' ' :: '-' :: '-' :: '>' :: ' ' ::
        (b.end_ ++ '\n' :: (b.text ++ '\n' :: '\n' :: z)) := by
    rw [hstart]
    simp
  rw [hstart']
  rw [matchTimestamp_append _ _ hts1]
  dsimp only
  rw [if_neg (by decide), if_neg (by decide), if_neg (by decide)]
  rw [matchTimestamp_append _ _ hts2]
  dsimp only
  rw [if_neg (by decide)]
  rw [takeUntilBlank_append _ _ htextnl]
  dsimp only
  rw [map_newline_id _ htextnl, htnorm, hdval]

theorem scanEntries_succ (fuel : ℕ) (s : Str) (hs : s ≠ []) :
    scanEntries (fuel + 1) s
      = (match matchEntry s with
         | some (b, r) => (if b.text ≠ [] then [b] else []) ++ scanEntries fuel r
         | none => scanEntries fuel s.tail) := by
  cases s with
  | nil => exact absurd rfl hs
  | cons c cs => rfl

theorem matchEntry_not_digit (c : Char) (r : Str) (h : isDigitChar c = false) :
    matchEntry (c :: r) = none := by
  unfold matchEntry
  rw [List.takeWhile_cons_of_neg (by simp [h])]
  dsimp only
  rw [if_pos rfl]

theorem write_block_length (b : SRTBlock) : 3 ≤ (write_block b).length := by
  unfold write_block
  simp [List.length_append]
  omega

theorem scan_write : ∀ (bs : List SRTBlock), (∀ b ∈ bs, GoodBlock b) →
    ∀ fuel, (write_srt bs).length < fuel → scanEntries fuel (write_srt bs) = bs := by
  intro bs
  induction bs with
  | nil =>
    intro _ fuel _
    cases fuel <;> rfl
  | cons b bs ih =>
    intro hgood fuel hfuel
    have hgb := hgood b (List.mem_cons_self b bs)
    have hgood' : ∀ x ∈ bs, GoodBlock x := fun x hx => hgood x (List.mem_cons_of_mem b hx)
    have hwr : write_srt (b :: bs) = write_block b ++ write_srt bs := by
      unfold write_srt
      simp
    rw [hwr] at hfuel ⊢
    have hwb := write_block_length b
    have hlen : (write_block b).length + (write_srt bs).length < fuel := by
      rw [List.length_append] at hfuel
      omega
    have hne : write_block b ++ write_srt bs ≠ [] := by
      intro hcon
      have h2 : (write_block b ++ write_srt bs).length = 0 := by
        rw [hcon]
        rfl
      rw [List.length_append] at h2
      omega
    obtain ⟨f2, rfl⟩ : ∃ f2, fuel = f2 + 3 := ⟨fuel - 3, by omega⟩
    rw [scanEntries_succ (f2 + 2) _ hne, matchEntry_write_block b _ hgb]
    dsimp only
    rw [if_pos hgb.2.2.1]
    rw [scanEntries_succ (f2 + 1) _ (by simp),
      matchEntry_not_digit '\n' _ (by decide)]
    dsimp only [List.tail_cons]
    rw [scanEntries_succ f2 _ (by simp),
      matchEntry_not_digit '\n' _ (by decide)]
    dsimp only [List.tail_cons]
    rw [ih hgood' f2 (by omega)]
    rfl

/-- Whether a text contains an embedded blank line (two consecutive
newlines), the situation the claim excludes. -/
def hasBlankLine : Str → Bool
  | [] => false
  | c :: rest => ((c == '\n') && (rest.head? == some '\n')) || hasBlankLine rest

/-- C6 counterexample.  The claim states the round-trip law for every
cue sequence whose texts contain no embedded blank lines.  A text with a
single internal newline (no blank line) is rewritten by the parser's
whitespace normalization — the newline becomes a space — so the
round-trip returns a different cue sequence. -/
theorem parse_write_roundtrip_counterexample :
    hasBlankLine "a\nb".data = false ∧
    parse_srt (write_srt [⟨1, "00:00:00,000".data, "00:00:01,000".data, "a\nb".data⟩])
      ≠ [⟨1, "00:00:00,000".data, "00:00:01,000".data, "a\nb".data⟩] := by
  decide

/-- C6 (amended).  For cue sequences whose timestamps match the
`HH:MM:SS,mmm` pattern and whose texts are non-empty and already
whitespace-normalized (no newlines, no-break spaces, runs of spaces, or
leading/trailing whitespace — in particular no embedded blank lines),
serializing with `write_srt` and re-parsing with `parse_srt` returns an
equal cue sequence: same indices, timestamps and texts in order. -/
theorem parse_write_roundtrip (bs : List SRTBlock) (h : ∀ b ∈ bs, GoodBlock b) :
    parse_srt (write_srt bs) = bs := by
  unfold parse_srt
  exact scan_write bs h _ (Nat.lt_succ_self _)

/-- Witness for C6 (amended) on a concrete two-cue sequence. -/
theorem parse_write_roundtrip_witness :
    parse_srt (write_srt
      [⟨1, "00:00:01,000".data, "00:00:02,000".data, "Hey there".data⟩,
       ⟨12, "00:00:02,000".data, "00:00:03,000".data, "Yo".data⟩])
      = [⟨1, "00:00:01,000".data, "00:00:02,000".data, "Hey there".data⟩,
         ⟨12, "00:00:02,000".data, "00:00:03,000".data, "Yo".data⟩] :=
  parse_write_roundtrip
    [⟨1, "00:00:01,000".data, "00:00:02,000".data, "Hey there".data⟩,
     ⟨12, "00:00:02,000".data, "00:00:03,000".data, "Yo".data⟩]
    (by decide)

/-! ### Word-preservation lemmas for the wrapper and distributor (C5) -/

/-- Shorthand for the word shape the wrapper preserves: nonempty,
whitespace-free, and within the wrap width. -/
def GoodWords (width : ℕ) (ws : List Str) : Prop :=
  ∀ w ∈ ws, w ≠ [] ∧ (∀ c ∈ w, pyIsSpace c = false) ∧ w.length ≤ width

theorem map_id_of_mem {f : Char → Char} : ∀ (s : Str), (∀ c ∈ s, f c = c) → s.map f = s := by
  intro s
  induction s with
  | nil => intro _; rfl
  | cons c cs ih =>
    intro h
    rw [List.map_cons, h c (List.mem_cons_self c cs),
      ih (fun d hd => h d (List.mem_cons_of_mem c hd))]

theorem wsToSp_space (c : Char) : pyIsSpace (wsToSp c) = pyIsSpace c := by
  unfold wsToSp
  split
  · rename_i h
    rw [h]
    rfl
  · rfl

theorem map_wsToSp_joinSpace (ws : List Str)
    (h : ∀ w ∈ ws, ∀ c ∈ w, pyIsSpace c = false) :
    (joinSpace ws).map wsToSp = joinSpace ws := by
  apply map_id_of_mem
  intro c hc
  rcases mem_joinSpace ws c hc with hc | ⟨w, hw, hcw⟩
  · rw [hc]
    rfl
  · have := h w hw c hcw
    unfold wsToSp
    rw [this]
    simp

theorem splitWordsAux_map_wsToSp : ∀ (s : Str) (acc : Str),
    splitWordsAux (s.map wsToSp) acc = splitWordsAux s acc := by
  intro s
  induction s with
  | nil => intro acc; rfl
  | cons c cs ih =>
    intro acc
    rw [List.map_cons, splitWordsAux, splitWordsAux, wsToSp_space]
    by_cases h : pyIsSpace c
    · rw [if_pos h, if_pos h]
      by_cases ha : acc = []
      · rw [if_pos ha, if_pos ha, ih]
      · rw [if_neg ha, if_neg ha, ih]
    · rw [if_neg h, if_neg h]
      have hc : wsToSp c = c := by
        unfold wsToSp
        rw [if_neg h]
      rw [hc, ih]

theorem splitWords_map_wsToSp (s : Str) : splitWords (s.map wsToSp) = splitWords s :=
  splitWordsAux_map_wsToSp s []

theorem splitWordsAux_word : ∀ (w : Str) (s : Str) (acc : Str),
    (∀ c ∈ w, pyIsSpace c = false) →
    splitWordsAux (w ++ s) acc = splitWordsAux s (acc ++ w) := by
  intro w
  induction w with
  | nil =>
    intro s acc _
    simp
  | cons c cs ih =>
    intro s acc h
    rw [List.cons_append, splitWordsAux, if_neg (by simp [h c (List.mem_cons_self c cs)])]
    rw [ih s (acc ++ [c]) (fun d hd => h d (List.mem_cons_of_mem c hd))]
    simp

theorem splitWords_joinSpace : ∀ (ws : List Str),
    (∀ w ∈ ws, w ≠ [] ∧ ∀ c ∈ w, pyIsSpace c = false) →
    splitWords (joinSpace ws) = ws := by
  intro ws
  induction ws with
  | nil => intro _; rfl
  | cons w ws ih =>
    intro h
    have hw := h w (List.mem_cons_self w ws)
    have h' : ∀ x ∈ ws, x ≠ [] ∧ ∀ c ∈ x, pyIsSpace c = false :=
      fun x hx => h x (List.mem_cons_of_mem w hx)
    cases ws with
    | nil =>
      show splitWordsAux (joinSpace [w]) [] = [w]
      have hj : joinSpace [w] = w ++ [] := by simp [joinSpace]
      rw [hj, splitWordsAux_word w [] [] hw.2]
      simp [splitWordsAux, hw.1]
    | cons w2 ws2 =>
      have hj : joinSpace (w :: w2 :: ws2) = w ++ ' ' :: joinSpace (w2 :: ws2) := rfl
      show splitWordsAux (joinSpace (w :: w2 :: ws2)) [] = w :: w2 :: ws2
      rw [hj, splitWordsAux_word w (' ' :: joinSpace (w2 :: ws2)) [] hw.2]
      rw [List.nil_append, splitWordsAux, if_pos (by decide), if_neg hw.1]
      show w :: splitWords (joinSpace (w2 :: ws2)) = w :: w2 :: ws2
      rw [ih h']

theorem splitWords_of_sep (r : Str) (ws : List Str)
    (hsep : r.map wsToSp = joinSpace ws)
    (hgood : ∀ w ∈ ws, w ≠ [] ∧ ∀ c ∈ w, pyIsSpace c = false) :
    splitWords r = ws := by
  rw [← splitWords_map_wsToSp r, hsep, splitWords_joinSpace ws hgood]

theorem joinSpace_append : ∀ (A B : List Str), A ≠ [] → B ≠ [] →
    joinSpace (A ++ B) = joinSpace A ++ ' ' :: joinSpace B := by
  intro A
  induction A with
  | nil => intro B h _; exact absurd rfl h
  | cons a A ih =>
    intro B _ hB
    cases A with
    | nil =>
      cases B with
      | nil => exact absurd rfl hB
      | cons b Bs =>
        show joinSpace (a :: b :: Bs) = a ++ ' ' :: joinSpace (b :: Bs)
        rfl
    | cons a2 As =>
      have h1 : joinSpace ((a :: a2 :: As) ++ B) = a ++ ' ' :: joinSpace ((a2 :: As) ++ B) := rfl
      have h2 : joinSpace (a :: a2 :: As) = a ++ ' ' :: joinSpace (a2 :: As) := rfl
      rw [h1, ih B (by simp) hB, h2]
      simp

theorem joinSpace_flatten : ∀ (Ps : List (List Str)), ([] ∉ Ps) →
    joinSpace (Ps.map joinSpace) = joinSpace Ps.flatten := by
  intro Ps
  induction Ps with
  | nil => intro _; rfl
  | cons P Ps ih =>
    intro h
    have hP : P ≠ [] := fun hc => h (hc ▸ List.mem_cons_self P Ps)
    have h' : [] ∉ Ps := fun hc => h (List.mem_cons_of_mem P hc)
    cases Ps with
    | nil =>
      simp [joinSpace]
    | cons Q Qs =>
      have hQ : Q ≠ [] := fun hc => h' (hc ▸ List.mem_cons_self Q Qs)
      have hflat : (Q :: Qs).flatten ≠ [] := by
        cases Q with
        | nil => exact absurd rfl hQ
        | cons q qs => simp
      have h1 : joinSpace (joinSpace P :: joinSpace Q :: (Qs.map joinSpace))
          = joinSpace P ++ ' ' :: joinSpace (joinSpace Q :: Qs.map joinSpace) := rfl
      rw [List.map_cons, List.map_cons] at *
      rw [h1, ih h']
      rw [show (P :: Q :: Qs).flatten = P ++ (Q :: Qs).flatten from rfl,
        joinSpace_append P (Q :: Qs).flatten hP hflat,
        show (Q :: Qs).flatten = Q ++ Qs.flatten from rfl]

theorem pyStrip_cons_space (c : Char) (s : Str) (h : pyIsSpace c = true) :
    pyStrip (c :: s) = pyStrip s := by
  unfold pyStrip
  rw [List.dropWhile_cons_of_pos (by simp [h])]

theorem pyStrip_id (s : Str) (hh : ∀ c, s.head? = some c → pyIsSpace c = false)
    (hl : ∀ c, s.getLast? = some c → pyIsSpace c = false) :
    pyStrip s = s := by
  cases s with
  | nil => rfl
  | cons c cs =>
    unfold pyStrip
    rw [List.dropWhile_cons_of_neg (by simp [hh c rfl])]
    have hrev : (c :: cs).reverse.dropWhile pyIsSpace = (c :: cs).reverse := by
      cases hr : (c :: cs).reverse with
      | nil =>
        have := congrArg List.length hr
        simp at this
      | cons d ds =>
        have hd : (c :: cs).getLast? = some d := by
          rw [← List.head?_reverse, hr]
          rfl
        rw [List.dropWhile_cons_of_neg (by simp [hl d hd])]
    rw [hrev, List.reverse_reverse]

theorem joinSpace_ne (ws : List Str)
    (hgood : ∀ w ∈ ws, w ≠ [] ∧ ∀ c ∈ w, pyIsSpace c = false) (hne : ws ≠ []) :
    joinSpace ws ≠ [] := by
  cases ws with
  | nil => exact absurd rfl hne
  | cons w ws =>
    have hw := (hgood w (List.mem_cons_self w ws)).1
    obtain ⟨x, xs, hx⟩ : ∃ x xs, w = x :: xs := by
      cases w with
      | nil => exact absurd rfl hw
      | cons x xs => exact ⟨x, xs, rfl⟩
    cases ws with
    | nil =>
      rw [show joinSpace [w] = w from rfl, hx]
      simp
    | cons w2 ws2 =>
      rw [show joinSpace (w :: w2 :: ws2) = w ++ ' ' :: joinSpace (w2 :: ws2) from rfl, hx]
      simp

theorem joinSpace_head : ∀ (ws : List Str),
    (∀ w ∈ ws, w ≠ [] ∧ ∀ c ∈ w, pyIsSpace c = false) → ws ≠ [] →
    ∀ c, (joinSpace ws).head? = some c → pyIsSpace c = false := by
  intro ws hgood hne c hc
  cases ws with
  | nil => exact absurd rfl hne
  | cons w ws =>
    have hw := hgood w (List.mem_cons_self w ws)
    obtain ⟨c0, cs0, hw0⟩ : ∃ c0 cs0, w = c0 :: cs0 := by
      cases w with
      | nil => exact absurd rfl hw.1
      | cons x xs => exact ⟨x, xs, rfl⟩
    have hj : (joinSpace (w :: ws)).head? = some c0 := by
      cases ws with
      | nil => rw [show joinSpace [w] = w from rfl, hw0]; rfl
      | cons w2 ws2 =>
        rw [show joinSpace (w :: w2 :: ws2) = w ++ ' ' :: joinSpace (w2 :: ws2) from rfl, hw0]
        rfl
    rw [hj] at hc
    have hcc : c0 = c := by injection hc
    subst hcc
    exact hw.2 c0 (hw0 ▸ List.mem_cons_self c0 cs0)

theorem joinSpace_last : ∀ (ws : List Str),
    (∀ w ∈ ws, w ≠ [] ∧ ∀ c ∈ w, pyIsSpace c = false) → ws ≠ [] →
    ∀ c, (joinSpace ws).getLast? = some c → pyIsSpace c = false := by
  intro ws
  induction ws with
  | nil => intro _ hne; exact absurd rfl hne
  | cons w ws ih =>
    intro hgood _ c hc
    have hw := hgood w (List.mem_cons_self w ws)
    cases ws with
    | nil =>
      rw [show joinSpace [w] = w from rfl] at hc
      exact hw.2 c (List.mem_of_mem_getLast? hc)
    | cons w2 ws2 =>
      rw [show joinSpace (w :: w2 :: ws2) = w ++ ' ' :: joinSpace (w2 :: ws2) from rfl] at hc
      have hne2 : ' ' :: joinSpace (w2 :: ws2) ≠ [] := by simp
      rw [List.getLast?_append_of_ne_nil w hne2] at hc
      have hgood' : ∀ x ∈ w2 :: ws2, x ≠ [] ∧ ∀ d ∈ x, pyIsSpace d = false :=
        fun x hx => hgood x (List.mem_cons_of_mem w hx)
      have hjne : joinSpace (w2 :: ws2) ≠ [] := joinSpace_ne _ hgood' (by simp)
      obtain ⟨d, ds, hd⟩ : ∃ d ds, joinSpace (w2 :: ws2) = d :: ds := by
        cases hj : joinSpace (w2 :: ws2) with
        | nil => exact absurd hj hjne
        | cons d ds => exact ⟨d, ds, rfl⟩
      rw [hd, List.getLast?_cons_cons, ← hd] at hc
      exact ih hgood' (by simp) c hc

theorem pyStrip_joinSpace (ws : List Str)
    (hgood : ∀ w ∈ ws, w ≠ [] ∧ ∀ c ∈ w, pyIsSpace c = false) :
    pyStrip (joinSpace ws) = joinSpace ws := by
  cases hws : ws with
  | nil => rfl
  | cons w ws2 =>
    rw [← hws]
    exact pyStrip_id _ (joinSpace_head ws hgood (by rw [hws]; simp))
      (joinSpace_last ws hgood (by rw [hws]; simp))

theorem pyStrip_map_wsToSp (s : Str) : (pyStrip s).map wsToSp = pyStrip (s.map wsToSp) := by
  unfold pyStrip
  have hdw : ∀ (t : Str), (t.map wsToSp).dropWhile pyIsSpace
      = (t.dropWhile pyIsSpace).map wsToSp := by
    intro t
    induction t with
    | nil => rfl
    | cons c cs ih =>
      rw [List.map_cons]
      by_cases h : pyIsSpace c
      · rw [List.dropWhile_cons_of_pos (by simp [wsToSp_space, h]),
          List.dropWhile_cons_of_pos (by simp [h]), ih]
      · rw [List.dropWhile_cons_of_neg (by simp [wsToSp_space, h]),
          List.dropWhile_cons_of_neg (by simp [h]), List.map_cons]
  rw [hdw, ← List.map_reverse, hdw, List.map_reverse]

/-- The chunk sequence of a single-space-separated word list: words
interleaved with one-space chunks. -/
def interleave : List Str → List Str
  | [] => []
  | [w] => [w]
  | w :: ws => w :: [' '] :: interleave ws

theorem interleave_cons_cons (w w2 : Str) (ws : List Str) :
    interleave (w :: w2 :: ws) = w :: [' '] :: interleave (w2 :: ws) := rfl

theorem interleave_ne (ws : List Str) (h : ws ≠ []) : interleave ws ≠ [] := by
  cases ws with
  | nil => exact absurd rfl h
  | cons w ws =>
    cases ws with
    | nil => simp [interleave]
    | cons w2 ws2 => rw [interleave_cons_cons]; simp

theorem flatten_interleave : ∀ (ws : List Str), (interleave ws).flatten = joinSpace ws := by
  intro ws
  induction ws with
  | nil => rfl
  | cons w ws ih =>
    cases ws with
    | nil => simp [interleave, joinSpace]
    | cons w2 ws2 =>
      rw [interleave_cons_cons, List.flatten_cons, List.flatten_cons, ih,
        show joinSpace (w :: w2 :: ws2) = w ++ ' ' :: joinSpace (w2 :: ws2) from rfl]
      simp

theorem interleave_getLast : ∀ (ws : List Str), ws ≠ [] →
    ∃ w, (interleave ws).getLast? = some w ∧ w ∈ ws := by
  intro ws
  induction ws with
  | nil => intro h; exact absurd rfl h
  | cons w ws ih =>
    intro _
    cases ws with
    | nil => exact ⟨w, rfl, by simp⟩
    | cons w2 ws2 =>
      obtain ⟨w', hw', hmem⟩ := ih (by simp)
      refine ⟨w', ?_, List.mem_cons_of_mem w hmem⟩
      rw [interleave_cons_cons, List.getLast?_cons_cons]
      obtain ⟨d, ds, hd⟩ : ∃ d ds, interleave (w2 :: ws2) = d :: ds := by
        cases hj : interleave (w2 :: ws2) with
        | nil => exact absurd hj (interleave_ne _ (by simp))
        | cons d ds => exact ⟨d, ds, rfl⟩
      rw [hd, List.getLast?_cons_cons, ← hd]
      exact hw'

/-! Chunking a single-space-separated word list yields the interleaved
chunks. -/

theorem chunksAux_word : ∀ (w : Str) (s : Str) (acc : Str),
    (∀ c ∈ w, pyIsSpace c = false) → acc ≠ [] → (∀ c ∈ acc, pyIsSpace c = false) →
    chunksAux (w ++ s) acc = chunksAux s (acc ++ w) := by
  intro w
  induction w with
  | nil =>
    intro s acc _ _ _
    simp
  | cons c cs ih =>
    intro s acc hw hacc haccw
    obtain ⟨a, as, ha⟩ : ∃ a as, acc = a :: as := by
      cases acc with
      | nil => exact absurd rfl hacc
      | cons a as => exact ⟨a, as, rfl⟩
    rw [List.cons_append, ha, chunksAux.eq_def]
    dsimp only
    have hc : pyIsSpace c = false := hw c (List.mem_cons_self c cs)
    have haa : pyIsSpace a = false := haccw a (ha ▸ List.mem_cons_self a as)
    rw [if_pos (by rw [hc, haa]; rfl)]
    rw [← ha]
    rw [ih s (acc ++ [c]) (fun d hd => hw d (List.mem_cons_of_mem c hd))
      (by simp) ?_]
    · simp
    · intro d hd
      rcases List.mem_append.mp hd with hd | hd
      · exact haccw d hd
      · simp only [List.mem_singleton] at hd
        subst hd
        exact hc

theorem chunksAux_start : ∀ (w : Str) (s : Str), w ≠ [] → (∀ c ∈ w, pyIsSpace c = false) →
    chunksAux (w ++ s) [] = chunksAux s w := by
  intro w s hw hwc
  obtain ⟨c, cs, hc⟩ : ∃ c cs, w = c :: cs := by
    cases w with
    | nil => exact absurd rfl hw
    | cons c cs => exact ⟨c, cs, rfl⟩
  subst hc
  rw [List.cons_append, chunksAux]
  rw [chunksAux_word cs s [c] (fun d hd => hwc d (List.mem_cons_of_mem c hd))
    (by simp) (fun d hd => by
      simp only [List.mem_singleton] at hd
      subst hd
      exact hwc d (List.mem_cons_self d cs))]
  simp

theorem chunksOf_joinSpace : ∀ (ws : List Str),
    (∀ w ∈ ws, w ≠ [] ∧ ∀ c ∈ w, pyIsSpace c = false) →
    chunksOf (joinSpace ws) = interleave ws := by
  intro ws
  induction ws with
  | nil => intro _; rfl
  | cons w ws ih =>
    intro hgood
    have hw := hgood w (List.mem_cons_self w ws)
    have hgood' : ∀ x ∈ ws, x ≠ [] ∧ ∀ c ∈ x, pyIsSpace c = false :=
      fun x hx => hgood x (List.mem_cons_of_mem w hx)
    cases ws with
    | nil =>
      show chunksAux (joinSpace [w]) [] = [w]
      rw [show joinSpace [w] = w ++ ([] : Str) from (by simp [joinSpace]), chunksAux_start w [] hw.1 hw.2]
      simp [chunksAux, hw.1]
    | cons w2 ws2 =>
      show chunksAux (joinSpace (w :: w2 :: ws2)) [] = interleave (w :: w2 :: ws2)
      rw [show joinSpace (w :: w2 :: ws2) = w ++ ' ' :: joinSpace (w2 :: ws2) from rfl,
        chunksAux_start w _ hw.1 hw.2]
      obtain ⟨c2, t2, hj2⟩ : ∃ c2 t2, joinSpace (w2 :: ws2) = c2 :: t2 := by
        cases hj : joinSpace (w2 :: ws2) with
        | nil => exact absurd hj (joinSpace_ne _ hgood' (by simp))
        | cons c2 t2 => exact ⟨c2, t2, rfl⟩
      have hc2 : pyIsSpace c2 = false :=
        joinSpace_head (w2 :: ws2) hgood' (by simp) c2 (by rw [hj2]; rfl)
      obtain ⟨a, as, ha⟩ : ∃ a as, w = a :: as := by
        cases w with
        | nil => exact absurd rfl hw.1
        | cons a as => exact ⟨a, as, rfl⟩
      have ha' : pyIsSpace a = false := hw.2 a (ha ▸ List.mem_cons_self a as)
      rw [ha, chunksAux.eq_def]
      dsimp only
      rw [if_neg (by rw [ha']; decide)]
      rw [hj2, chunksAux.eq_def]
      dsimp only
      rw [if_neg (by rw [hc2]; decide)]
      have hstep : chunksAux t2 [c2] = interleave (w2 :: ws2) := by
        have h0 : chunksAux (c2 :: t2) [] = chunksAux t2 [c2] := rfl
        rw [← h0, ← hj2]
        exact ih hgood'
      rw [hstep, interleave_cons_cons]

theorem takeFits_interleave (width : ℕ) :
    ∀ (tl : List Str) (w : Str) (curLen : ℕ),
    curLen + w.length ≤ width →
    ∃ wsA wsB endSp,
      w :: tl = wsA ++ wsB ∧ wsA ≠ [] ∧ (endSp = true → wsB ≠ []) ∧
      takeFits width curLen (interleave (w :: tl))
        = (interleave wsA ++ (if endSp then [[' ']] else ([] : List Str)),
           if wsB = [] then []
           else (if endSp then interleave wsB else [' '] :: interleave wsB)) := by
  intro tl
  induction tl with
  | nil =>
    intro w curLen hfit
    refine ⟨[w], [], false, by simp, by simp, by simp, ?_⟩
    show takeFits width curLen [w] = _
    rw [takeFits, if_pos hfit]
    simp [takeFits, interleave]
  | cons w2 tl2 ih =>
    intro w curLen hfit
    rw [interleave_cons_cons]
    by_cases hsp : curLen + w.length + 1 ≤ width
    · by_cases hw2 : curLen + w.length + 1 + w2.length ≤ width
      · obtain ⟨wsA', wsB', endSp', hsplit, hAne, himp, heq⟩ :=
          ih w2 (curLen + w.length + 1) hw2
        refine ⟨w :: wsA', wsB', endSp', by rw [List.cons_append, ← hsplit], by simp,
          himp, ?_⟩
        rw [takeFits, if_pos hfit]
        dsimp only
        rw [takeFits, if_pos (by simpa using hsp)]
        dsimp only
        simp only [List.length_cons, List.length_nil, Nat.zero_add]
        rw [heq]
        obtain ⟨x, xs, hx⟩ : ∃ x xs, wsA' = x :: xs := by
          cases wsA' with
          | nil => exact absurd rfl hAne
          | cons x xs => exact ⟨x, xs, rfl⟩
        rw [hx, interleave_cons_cons, ← hx]
        simp
      · refine ⟨[w], w2 :: tl2, true, by simp, by simp, fun _ => by simp, ?_⟩
        obtain ⟨T, hT⟩ : ∃ T, interleave (w2 :: tl2) = w2 :: T := by
          cases tl2 with
          | nil => exact ⟨[], rfl⟩
          | cons w3 tl3 => exact ⟨[' '] :: interleave (w3 :: tl3), rfl⟩
        rw [takeFits, if_pos hfit]
        dsimp only
        rw [takeFits, if_pos (by simpa using hsp)]
        dsimp only
        rw [hT, takeFits,
          if_neg (by simp only [List.length_cons, List.length_nil, Nat.zero_add]; omega)]
        rw [← hT]
        simp [interleave]
    · refine ⟨[w], w2 :: tl2, false, by simp, by simp, by simp, ?_⟩
      rw [takeFits, if_pos hfit]
      dsimp only
      rw [takeFits,
        if_neg (by simp only [List.length_cons, List.length_nil, Nat.zero_add]; omega)]
      simp [interleave]

theorem wrapChunks_nil (f width : ℕ) (flag : Bool) : wrapChunks f width flag [] = [] := by
  cases f <;> rfl

theorem isWsChunk_false_of_good (w : Str) (hne : w ≠ [])
    (hns : ∀ c ∈ w, pyIsSpace c = false) : isWsChunk w = false := by
  cases w with
  | nil => exact absurd rfl hne
  | cons c cs =>
    unfold isWsChunk
    simp only [List.all_cons, Bool.and_eq_false_iff]
    left
    exact hns c (List.mem_cons_self c cs)


theorem wrapChunks_drop (width f : ℕ) (w : Str) (tl : List Str)
    (hne : w ≠ []) (hns : ∀ c ∈ w, pyIsSpace c = false) :
    wrapChunks (f + 1) width true ([' '] :: interleave (w :: tl))
      = wrapChunks (f + 1) width true (interleave (w :: tl)) := by
  obtain ⟨T, hT⟩ : ∃ T, interleave (w :: tl) = w :: T := by
    cases tl with
    | nil => exact ⟨[], rfl⟩
    | cons w2 tl2 => exact ⟨[' '] :: interleave (w2 :: tl2), rfl⟩
  rw [hT]
  rw [wrapChunks, wrapChunks]
  dsimp only
  rw [show (true && isWsChunk [' ']) = true from rfl,
    isWsChunk_false_of_good w hne hns]
  simp

theorem wrapChunks_step (width : ℕ) (hw : 1 ≤ width) (f : ℕ) (w : Str) (tl : List Str)
    (flag : Bool) (hgood : GoodWords width (w :: tl)) :
    ∃ wsA wsB endSp,
    w :: tl = wsA ++ wsB ∧ wsA ≠ [] ∧ (endSp = true → wsB ≠ []) ∧
    wrapChunks (f + 1) width flag (interleave (w :: tl))
      = joinSpace wsA :: wrapChunks f width true
          (if wsB = [] then []
           else if endSp then interleave wsB else [' '] :: interleave wsB) := by
  have hgw := hgood w (List.mem_cons_self w tl)
  have hfit : 0 + w.length ≤ width := by
    have := hgw.2.2
    omega
  obtain ⟨wsA, wsB, endSp, hsplit, hAne, himp, heq⟩ := takeFits_interleave width tl w 0 hfit
  have hgoodB : GoodWords width wsB := fun x hx =>
    hgood x (hsplit ▸ List.mem_append_right wsA hx)
  have hgoodA : GoodWords width wsA := fun x hx =>
    hgood x (hsplit ▸ List.mem_append_left wsB hx)
  obtain ⟨T, hT⟩ : ∃ T, interleave (w :: tl) = w :: T := by
    cases tl with
    | nil => exact ⟨[], rfl⟩
    | cons w2 tl2 => exact ⟨[' '] :: interleave (w2 :: tl2), rfl⟩
  obtain ⟨d, ds, hd⟩ : ∃ d ds, interleave wsA = d :: ds := by
    cases hi : interleave wsA with
    | nil => exact absurd hi (interleave_ne _ hAne)
    | cons d ds => exact ⟨d, ds, rfl⟩
  obtain ⟨w', hw', hmemA⟩ := interleave_getLast wsA hAne
  have hw'ws : isWsChunk w' = false :=
    isWsChunk_false_of_good w' (hgoodA w' hmemA).1 (hgoodA w' hmemA).2.1
  refine ⟨wsA, wsB, endSp, hsplit, hAne, himp, ?_⟩
  cases endSp with
  | true =>
    have hBne : wsB ≠ [] := himp rfl
    obtain ⟨b, bs, hB⟩ : ∃ b bs, wsB = b :: bs := by
      cases wsB with
      | nil => exact absurd rfl hBne
      | cons b bs => exact ⟨b, bs, rfl⟩
    subst hB
    obtain ⟨rs, hr⟩ : ∃ rs, interleave (b :: bs) = b :: rs := by
      cases bs with
      | nil => exact ⟨[], rfl⟩
      | cons b2 bs2 => exact ⟨[' '] :: interleave (b2 :: bs2), rfl⟩
    have hble : ¬ width < b.length := by
      have := (hgoodB b (List.mem_cons_self b bs)).2.2
      omega
    have heq' : takeFits width 0 (w :: T) = (interleave wsA ++ [[' ']], b :: rs) := by
      rw [← hT, heq]
      simp [hr]
    rw [show (if (b :: bs : List Str) = [] then ([] : List Str)
        else if (true : Bool) then interleave (b :: bs) else [' '] :: interleave (b :: bs))
        = interleave (b :: bs) from by simp]
    rw [hT, wrapChunks]
    dsimp only
    rw [isWsChunk_false_of_good w hgw.1 hgw.2.1]
    simp only [Bool.and_false, Bool.false_eq_true, if_false]
    rw [heq']
    dsimp only
    rw [if_neg hble]
    dsimp only
    rw [List.getLast?_concat]
    dsimp only
    rw [show isWsChunk [' '] = true from rfl]
    rw [if_pos rfl, List.dropLast_concat, hd]
    dsimp only
    rw [← hd, flatten_interleave, ← hr]
  | false =>
    cases wsB with
    | nil =>
      have heq' : takeFits width 0 (w :: T) = (interleave wsA, []) := by
        rw [← hT, heq]
        simp
      rw [show (if ([] : List Str) = [] then ([] : List Str)
          else if (false : Bool) then interleave ([] : List Str)
          else [' '] :: interleave ([] : List Str)) = ([] : List Str) from by simp]
      rw [hT, wrapChunks]
      dsimp only
      rw [isWsChunk_false_of_good w hgw.1 hgw.2.1]
      simp only [Bool.and_false, Bool.false_eq_true, if_false]
      rw [heq']
      dsimp only
      rw [hw']
      dsimp only
      rw [hw'ws]
      simp only [Bool.false_eq_true, if_false]
      rw [hd]
      dsimp only
      rw [← hd, flatten_interleave]
    | cons b bs =>
      obtain ⟨rs, hr⟩ : ∃ rs, interleave (b :: bs) = b :: rs := by
        cases bs with
        | nil => exact ⟨[], rfl⟩
        | cons b2 bs2 => exact ⟨[' '] :: interleave (b2 :: bs2), rfl⟩
      have heq' : takeFits width 0 (w :: T)
          = (interleave wsA, [' '] :: interleave (b :: bs)) := by
        rw [← hT, heq]
        simp
      rw [show (if (b :: bs : List Str) = [] then ([] : List Str)
          else if (false : Bool) then interleave (b :: bs)
          else [' '] :: interleave (b :: bs)) = [' '] :: interleave (b :: bs) from by simp]
      rw [hT, wrapChunks]
      dsimp only
      rw [isWsChunk_false_of_good w hgw.1 hgw.2.1]
      simp only [Bool.and_false, Bool.false_eq_true, if_false]
      rw [heq']
      dsimp only
      rw [if_neg (by simp only [List.length_cons, List.length_nil, Nat.zero_add]; omega)]
      dsimp only
      rw [hw']
      dsimp only
      rw [hw'ws]
      simp only [Bool.false_eq_true, if_false]
      rw [hd]
      dsimp only
      rw [← hd, flatten_interleave]

theorem wrapChunks_interleave (width : ℕ) (hw : 1 ≤ width) :
    ∀ (fuel : ℕ) (ws : List Str) (flag pre : Bool),
    ws.length < fuel →
    GoodWords width ws →
    (pre = true → flag = true) →
    ∃ P : List (List Str), ([] ∉ P) ∧ P.flatten = ws ∧
      wrapChunks fuel width flag ((if pre then [[' ']] else []) ++ interleave ws)
        = P.map joinSpace := by
  intro fuel
  induction fuel with
  | zero =>
    intro ws flag pre h _ _
    omega
  | succ f ih =>
    intro ws flag pre hlen hgood hpre
    cases ws with
    | nil =>
      refine ⟨[], by simp, by simp, ?_⟩
      cases pre with
      | false => simpa using wrapChunks_nil (f + 1) width flag
      | true =>
        have hflag := hpre rfl
        subst hflag
        rfl
    | cons w tl =>
      have hgw := hgood w (List.mem_cons_self w tl)
      have hrest : ∀ fl : Bool, ∃ P : List (List Str), ([] ∉ P) ∧ P.flatten = w :: tl ∧
          wrapChunks (f + 1) width fl (interleave (w :: tl)) = P.map joinSpace := by
        intro fl
        obtain ⟨wsA, wsB, endSp, hsplit, hAne, himp, hstep⟩ :=
          wrapChunks_step width hw f w tl fl hgood
        have hgoodB : GoodWords width wsB := fun x hx =>
          hgood x (hsplit ▸ List.mem_append_right wsA hx)
        have hlenB : wsB.length < f := by
          have hl := congrArg List.length hsplit
          simp only [List.length_cons, List.length_append] at hl
          have hA1 : 1 ≤ wsA.length := by
            cases wsA with
            | nil => exact absurd rfl hAne
            | cons _ _ => simp
          simp only [List.length_cons] at hlen
          omega
        cases wsB with
        | nil =>
          rw [List.append_nil] at hsplit
          refine ⟨[wsA], ?_, ?_, ?_⟩
          · simp only [List.mem_singleton]
            exact fun h => hAne h.symm
          · simpa using hsplit.symm
          · rw [hstep, if_pos rfl, wrapChunks_nil]
            rfl
        | cons b bs =>
          cases endSp with
          | true =>
            obtain ⟨P', hPn, hPf, hPe⟩ := ih (b :: bs) true false hlenB hgoodB (fun _ => rfl)
            have hPe' : wrapChunks f width true (interleave (b :: bs)) = P'.map joinSpace := by
              simpa using hPe
            refine ⟨wsA :: P', ?_, ?_, ?_⟩
            · intro hc
              rcases List.mem_cons.mp hc with h | h
              · exact hAne h.symm
              · exact hPn h
            · rw [List.flatten_cons, hPf]
              exact hsplit.symm
            · rw [hstep, if_neg (List.cons_ne_nil b bs), if_pos rfl, hPe']
              rfl
          | false =>
            obtain ⟨P', hPn, hPf, hPe⟩ := ih (b :: bs) true true hlenB hgoodB (fun _ => rfl)
            have hPe' : wrapChunks f width true ([' '] :: interleave (b :: bs))
                = P'.map joinSpace := by
              simpa using hPe
            refine ⟨wsA :: P', ?_, ?_, ?_⟩
            · intro hc
              rcases List.mem_cons.mp hc with h | h
              · exact hAne h.symm
              · exact hPn h
            · rw [List.flatten_cons, hPf]
              exact hsplit.symm
            · rw [hstep, if_neg (List.cons_ne_nil b bs), if_neg (by decide), hPe']
              rfl
      cases pre with
      | true =>
        have hflag := hpre rfl
        subst hflag
        obtain ⟨P, h1, h2, h3⟩ := hrest true
        refine ⟨P, h1, h2, ?_⟩
        calc wrapChunks (f + 1) width true ((if true then [[' ']] else []) ++ interleave (w :: tl))
            = wrapChunks (f + 1) width true ([' '] :: interleave (w :: tl)) := by simp
          _ = wrapChunks (f + 1) width true (interleave (w :: tl)) :=
              wrapChunks_drop width f w tl hgw.1 hgw.2.1
          _ = P.map joinSpace := h3
      | false =>
        obtain ⟨P, h1, h2, h3⟩ := hrest flag
        refine ⟨P, h1, h2, ?_⟩
        simpa using h3

theorem interleave_length_le : ∀ ws : List Str, ws.length ≤ (interleave ws).length := by
  intro ws
  induction ws with
  | nil => simp [interleave]
  | cons w tl ih =>
    cases tl with
    | nil => simp [interleave]
    | cons w2 tl2 =>
      rw [interleave_cons_cons]
      simp only [List.length_cons] at ih ⊢
      omega

theorem textwrap_wrap_sep (width : ℕ) (hw : 1 ≤ width) (r : Str) (ws : List Str)
    (hsep : r.map wsToSp = joinSpace ws) (hgood : GoodWords width ws) :
    ∃ P : List (List Str), ([] ∉ P) ∧ P.flatten = ws ∧
      textwrap_wrap r width = P.map joinSpace := by
  unfold textwrap_wrap
  dsimp only
  rw [hsep]
  rw [chunksOf_joinSpace ws (fun w hwm => ⟨(hgood w hwm).1, (hgood w hwm).2.1⟩)]
  have hfuel : ws.length < 2 * ((joinSpace ws).length + (interleave ws).length) + 2 := by
    have := interleave_length_le ws
    omega
  obtain ⟨P, h1, h2, h3⟩ := wrapChunks_interleave width hw
    (2 * ((joinSpace ws).length + (interleave ws).length) + 2) ws false false hfuel hgood
    (fun h => absurd h (by decide))
  refine ⟨P, h1, h2, ?_⟩
  simpa using h3

theorem flatten_ne_of_head (Q : List Str) (Ps : List (List Str)) (h : Q ≠ []) :
    (Q :: Ps).flatten ≠ [] := by
  cases Q with
  | nil => exact absurd rfl h
  | cons c cs => simp

theorem wrap_two_lines_sep (width : ℕ) (hw : 1 ≤ width) (r : Str) (ws : List Str)
    (hsep : r.map wsToSp = joinSpace ws) (hgood : GoodWords width ws) :
    (wrap_two_lines r width).map wsToSp = joinSpace ws := by
  obtain ⟨P, hPn, hPf, hPe⟩ := textwrap_wrap_sep width hw r ws hsep hgood
  have hgoodw : ∀ w ∈ ws, w ≠ [] ∧ ∀ c ∈ w, pyIsSpace c = false :=
    fun w h => ⟨(hgood w h).1, (hgood w h).2.1⟩
  subst hPf
  unfold wrap_two_lines
  rw [hPe]
  cases P with
  | nil => rfl
  | cons Q1 P1 =>
    have hQ1 : Q1 ≠ [] := fun h => hPn (by rw [h] at *; exact List.mem_cons_self _ _)
    cases P1 with
    | nil =>
      show (joinNL [joinSpace Q1]).map wsToSp = joinSpace ([Q1].flatten)
      rw [show joinNL [joinSpace Q1] = joinSpace Q1 from rfl,
        map_wsToSp_joinSpace Q1 (fun w h => (hgoodw w (by simpa using h)).2)]
      simp
    | cons Q2 P2 =>
      have hQ2 : Q2 ≠ [] := fun h => hPn (by rw [h] at *; exact List.mem_cons_of_mem _ (List.mem_cons_self _ _))
      cases P2 with
      | nil =>
        show (joinNL [joinSpace Q1, joinSpace Q2]).map wsToSp = joinSpace ([Q1, Q2].flatten)
        rw [show joinNL [joinSpace Q1, joinSpace Q2]
            = joinSpace Q1 ++ '\n' :: joinSpace Q2 from rfl]
        rw [List.map_append, List.map_cons,
          map_wsToSp_joinSpace Q1 (fun w h => (hgoodw w (by simp [h])).2),
          map_wsToSp_joinSpace Q2 (fun w h => (hgoodw w (by simp [h])).2),
          show wsToSp '\n' = ' ' from rfl,
          ← joinSpace_append Q1 Q2 hQ1 hQ2]
        simp
      | cons Q3 P3 =>
        show (joinSpace Q1 ++ '\n' :: joinSpace (joinSpace Q2 :: joinSpace Q3 :: P3.map joinSpace)).map wsToSp
            = joinSpace ((Q1 :: Q2 :: Q3 :: P3).flatten)
        have hnotmem : ([] : List Str) ∉ (Q2 :: Q3 :: P3 : List (List Str)) :=
          fun h => hPn (List.mem_cons_of_mem _ h)
        rw [show (joinSpace Q2 :: joinSpace Q3 :: P3.map joinSpace : List Str)

            = (Q2 :: Q3 :: P3).map joinSpace from rfl]
        rw [joinSpace_flatten (Q2 :: Q3 :: P3) hnotmem]
        have hgd : ∀ w ∈ (Q2 :: Q3 :: P3).flatten, w ≠ [] ∧ ∀ c ∈ w, pyIsSpace c = false := by
          intro w h
          refine hgoodw w ?_
          simp only [List.flatten_cons, List.mem_append] at h ⊢
          rcases h with h | h
          · exact Or.inr (Or.inl h)
          rcases h with h | h
          · exact Or.inr (Or.inr (Or.inl h))
          · exact Or.inr (Or.inr (Or.inr h))
        rw [List.map_append, List.map_cons,
          map_wsToSp_joinSpace Q1 (fun w h => (hgoodw w (by simp [h])).2),
          map_wsToSp_joinSpace _ (fun w h => (hgd w h).2),
          show wsToSp '\n' = ' ' from rfl,
          ← joinSpace_append Q1 ((Q2 :: Q3 :: P3).flatten) hQ1
            (flatten_ne_of_head Q2 (Q3 :: P3) (fun h => hPn (by rw [h] at *; exact List.mem_cons_of_mem _ (List.mem_cons_self _ _))))]
        simp

theorem takeWords_split (t : ℤ) : ∀ (ws cur : List Str) (n : ℕ),
    (takeWords t ws cur n).1 ++ (takeWords t ws cur n).2 = cur ++ ws := by
  intro ws
  induction ws with
  | nil =>
    intro cur n
    simp [takeWords]
  | cons w rest ih =>
    intro cur n
    rw [takeWords]
    split
    all_goals split
    · rw [ih]
      simp
    · simp
    · rw [ih]
      simp
    · simp

theorem fillGo_spec : ∀ (bs : List SRTBlock) (ts : List ℤ) (ws : List Str),
    GoodWords 42 ws →
    ∃ parts : List (List Str),
      parts.flatten ++ (fillGo bs ts ws).2 = ws ∧
      parts.length = min bs.length ts.length ∧
      (fillGo bs ts ws).1.map (fun b => b.text.map wsToSp) = parts.map joinSpace ∧
      (fillGo bs ts ws).1.map (fun b => splitWords b.text) = parts := by
  intro bs
  induction bs with
  | nil =>
    intro ts ws hgood
    exact ⟨[], by simp [fillGo], by simp [fillGo], by simp [fillGo], by simp [fillGo]⟩
  | cons b bs ih =>
    intro ts ws hgood
    cases ts with
    | nil =>
      exact ⟨[], by simp [fillGo], by simp [fillGo], by simp [fillGo], by simp [fillGo]⟩
    | cons t ts =>
      have hfg : fillGo (b :: bs) (t :: ts) ws
          = (SRTBlock.mk b.index b.start b.end_
              (wrap_two_lines (pyStrip (joinSpace (takeWords t ws [] 0).1)) 42)
              :: (fillGo bs ts (takeWords t ws [] 0).2).1,
             (fillGo bs ts (takeWords t ws [] 0).2).2) := rfl
      have hwsplit : (takeWords t ws [] 0).1 ++ (takeWords t ws [] 0).2 = ws := by
        simpa using takeWords_split t ws [] 0
      have hgood1 : GoodWords 42 (takeWords t ws [] 0).1 := fun x hx =>
        hgood x (by rw [← hwsplit]; exact List.mem_append_left _ hx)
      have hgood2 : GoodWords 42 (takeWords t ws [] 0).2 := fun x hx =>
        hgood x (by rw [← hwsplit]; exact List.mem_append_right _ hx)
      have hg1 : ∀ w ∈ (takeWords t ws [] 0).1, w ≠ [] ∧ ∀ c ∈ w, pyIsSpace c = false :=
        fun w h => ⟨(hgood1 w h).1, (hgood1 w h).2.1⟩
      obtain ⟨parts', h1, h2, h3, h4⟩ := ih ts (takeWords t ws [] 0).2 hgood2
      have htext : (wrap_two_lines (pyStrip (joinSpace (takeWords t ws [] 0).1)) 42).map wsToSp
          = joinSpace (takeWords t ws [] 0).1 := by
        rw [pyStrip_joinSpace _ hg1]
        exact wrap_two_lines_sep 42 (by norm_num) _ _
          (map_wsToSp_joinSpace _ (fun w h => (hg1 w h).2)) hgood1
      have hsW : splitWords (wrap_two_lines (pyStrip (joinSpace (takeWords t ws [] 0).1)) 42)
          = (takeWords t ws [] 0).1 :=
        splitWords_of_sep _ _ htext hg1
      refine ⟨(takeWords t ws [] 0).1 :: parts', ?_, ?_, ?_, ?_⟩
      · rw [hfg, List.flatten_cons, List.append_assoc]
        dsimp only
        rw [h1, hwsplit]
      · simp only [List.length_cons, Nat.succ_min_succ, h2]
      · rw [hfg]
        simp only [List.map_cons]
        rw [h3, htext]
      · rw [hfg]
        simp only [List.map_cons]
        rw [h4, hsW]

/-- C5.  In the preserve-timing distribution over a non-empty block
sequence, provided every word of the normalized translated text is at
most 42 characters long and hyphen-free, no word is dropped: the
concatenation, in order, of the words of the output blocks' texts is
exactly the word sequence of the normalized translated string (leftover
words beyond the last block's budget are appended to the last block).
Without the proviso the claim fails: `_wrap_two_lines` breaks a word
longer than the 42-character width (and Python's `textwrap` additionally
splits at hyphens), so such a word is cut into pieces and no longer
appears among the output words. -/
theorem distribute_no_word_dropped (blocks : List SRTBlock) (translated_full : Str)
    (hbl : blocks ≠ [])
    (hwlen : ∀ w ∈ splitWords (normalize_whitespace translated_full),
      w.length ≤ 42 ∧ '-' ∉ w) :
    ((distribute_translation_over_blocks blocks translated_full).map
        (fun b => splitWords b.text)).flatten
      = splitWords (normalize_whitespace translated_full) := by
  have hgows : ∀ w ∈ splitWords (normalize_whitespace translated_full),
      w ≠ [] ∧ ∀ c ∈ w, pyIsSpace c = false :=
    fun w h => ⟨(splitWords_good _ w h).1, (splitWords_good _ w h).2⟩
  have hGW : GoodWords 42 (splitWords (normalize_whitespace translated_full)) :=
    fun w h => ⟨(hgows w h).1, (hgows w h).2, (hwlen w h).1⟩
  obtain ⟨parts, h1, h2, h3, h4⟩ :=
    fillGo_spec blocks (adjustedTargets blocks translated_full)
      (splitWords (normalize_whitespace translated_full)) hGW
  unfold distribute_translation_over_blocks
  dsimp only
  cases hr2 : (fillGo blocks (adjustedTargets blocks translated_full)
      (splitWords (normalize_whitespace translated_full))).2 with
  | nil =>
    rw [h4]
    rw [hr2, List.append_nil] at h1
    exact h1
  | cons r rs =>
    rw [hr2] at h1
    have hparts_ne : parts ≠ [] := by
      intro h
      rw [h, adjustedTargets_length, Nat.min_self] at h2
      exact hbl (List.length_eq_zero.mp h2.symm)
    obtain ⟨partsL, lastP, hP⟩ : ∃ partsL lastP, parts = partsL ++ [lastP] := by
      rcases List.eq_nil_or_concat parts with h | ⟨pl, lp, h⟩
      · exact absurd h hparts_ne
      · exact ⟨pl, lp, by simpa [List.concat_eq_append] using h⟩
    have hfne : (fillGo blocks (adjustedTargets blocks translated_full)
        (splitWords (normalize_whitespace translated_full))).1 ≠ [] := by
      intro h
      rw [h] at h4
      exact hparts_ne h4.symm
    obtain ⟨L, lastB, hL⟩ : ∃ L lastB,
        (fillGo blocks (adjustedTargets blocks translated_full)
          (splitWords (normalize_whitespace translated_full))).1 = L ++ [lastB] := by
      rcases List.eq_nil_or_concat (fillGo blocks (adjustedTargets blocks translated_full)
          (splitWords (normalize_whitespace translated_full))).1 with h | ⟨pl, lp, h⟩
      · exact absurd h hfne
      · exact ⟨pl, lp, by simpa [List.concat_eq_append] using h⟩
    rw [hL, hP] at h3 h4
    simp only [List.map_append, List.map_cons, List.map_nil] at h3 h4
    obtain ⟨hmap3, hlast3⟩ := List.append_inj' h3 (by simp)
    obtain ⟨hmap4, hlast4⟩ := List.append_inj' h4 (by simp)
    have glast : lastB.text.map wsToSp = joinSpace lastP := by
      simpa using hlast3
    have hmemP : ∀ w ∈ lastP ++ r :: rs,
        w ∈ splitWords (normalize_whitespace translated_full) := by
      intro w h
      rw [← h1]
      rcases List.mem_append.mp h with h | h
      · refine List.mem_append_left _ ?_
        rw [hP]
        simp only [List.flatten_append, List.flatten_cons, List.flatten_nil, List.append_nil]
        exact List.mem_append_right _ h
      · exact List.mem_append_right _ h
    have hgoodLP : GoodWords 42 (lastP ++ r :: rs) := fun w h => hGW w (hmemP w h)
    have hgLP : ∀ w ∈ lastP ++ r :: rs, w ≠ [] ∧ ∀ c ∈ w, pyIsSpace c = false :=
      fun w h => hgows w (hmemP w h)
    have hsepX : (pyStrip (lastB.text ++ ' ' :: joinSpace (r :: rs))).map wsToSp
        = joinSpace (lastP ++ r :: rs) := by
      rw [pyStrip_map_wsToSp, List.map_append, List.map_cons, glast,
        show wsToSp ' ' = ' ' from rfl,
        map_wsToSp_joinSpace (r :: rs)
          (fun w h => (hgLP w (List.mem_append_right _ h)).2)]
      cases hLP : lastP with
      | nil =>
        show pyStrip ([] ++ ' ' :: joinSpace (r :: rs)) = joinSpace ([] ++ r :: rs)
        rw [List.nil_append, List.nil_append, pyStrip_cons_space ' ' _ (by decide),
          pyStrip_joinSpace (r :: rs)
            (fun w h => hgLP w (List.mem_append_right _ h))]
      | cons q qs =>
        rw [← joinSpace_append (q :: qs) (r :: rs) (List.cons_ne_nil q qs)
            (List.cons_ne_nil r rs),
          pyStrip_joinSpace _ (fun w h => hgLP w (hLP ▸ h))]
    have hnew : splitWords (wrap_two_lines
          (pyStrip (lastB.text ++ ' ' :: joinSpace (r :: rs))) 42)
        = lastP ++ r :: rs :=
      splitWords_of_sep _ _
        (wrap_two_lines_sep 42 (by norm_num) _ _ hsepX hgoodLP) hgLP
    rw [hL, List.getLast?_concat]
    dsimp only
    rw [List.dropLast_concat]
    simp only [List.map_append, List.map_cons, List.map_nil, List.flatten_append,
      List.flatten_cons, List.flatten_nil]
    rw [hmap4, hnew, ← h1, hP]
    simp [List.flatten_append, List.append_assoc]

theorem adjustedTargets_single_long_word :
    adjustedTargets [⟨1, "a".data, "b".data, "xxxx".data⟩]
      (List.replicate 50 'a') = [50] := by
  have h50 : normalize_whitespace (List.replicate 50 'a') = List.replicate 50 'a' := by decide
  unfold adjustedTargets initialTargets srcTotal
  dsimp only
  rw [h50]
  norm_num [roundHalfEven]
  rfl

/-- Counterexample to the unqualified C5 claim: a single block whose
translation is one 50-character word.  `_wrap_two_lines` at width 42
breaks the word across two lines, so the word no longer appears among
the output blocks' words. -/
theorem distribute_no_word_dropped_counterexample :
    ¬ (((distribute_translation_over_blocks
          [⟨1, "a".data, "b".data, "xxxx".data⟩] (List.replicate 50 'a')).map
        (fun b => splitWords b.text)).flatten
      = splitWords (normalize_whitespace (List.replicate 50 'a'))) := by
  unfold distribute_translation_over_blocks
  dsimp only
  rw [adjustedTargets_single_long_word]
  decide

/-- Witness for C5 at a concrete two-block input with short words. -/
theorem distribute_no_word_dropped_witness :
    ([(⟨1, "a".data, "b".data, "Hallo Welt".data⟩ : SRTBlock),
      ⟨2, "c".data, "d".data, "wie geht es".data⟩] ≠ ([] : List SRTBlock)) ∧
    (∀ w ∈ splitWords (normalize_whitespace "Hallo Welt wie geht es dir".data),
      w.length ≤ 42 ∧ '-' ∉ w) ∧
    ((distribute_translation_over_blocks
        [(⟨1, "a".data, "b".data, "Hallo Welt".data⟩ : SRTBlock),
         ⟨2, "c".data, "d".data, "wie geht es".data⟩]
        "Hallo Welt wie geht es dir".data).map
      (fun b => splitWords b.text)).flatten
      = splitWords (normalize_whitespace "Hallo Welt wie geht es dir".data) :=
  ⟨by decide, by decide,
   distribute_no_word_dropped
     [⟨1, "a".data, "b".data, "Hallo Welt".data⟩,
      ⟨2, "c".data, "d".data, "wie geht es".data⟩]
     "Hallo Welt wie geht es dir".data (by decide) (by decide)⟩
